import Mathlib

/-!
# ShadowTls stream-disguise transport (`transport/shadowtls/shadowtls.go`)

A shallow embedding of the record framing code of the `shadowtls` package and
theorems about it.

The underlying `net.Conn` is the environment of the code.  It is modelled as a
value `NetConn`: the data it will deliver to `Read` (a list of segments, each
with the error the connection reports once the segment is used up), the answers
it will give to successive `Write` calls, and two records that are never read
by the code: the arguments of the `Write` calls so far (`sent`) and the options
of the handshakes started so far (`handshakes`).

The TLS client of the `trojan` package and HMAC-SHA1 are taken as parameters
(`Env`).  A Go slice is a list of bytes; a method that fills a buffer returns
the buffer as it is afterwards together with the count.  The receiver that the
source calls `to` is called `s` here.  Byte counts and lengths are natural
numbers (they stay far below the range of `int`); the field `remain` is an
integer, as in the source.
-/

namespace shadowtls

/-- One octet. -/
abbrev Byte := Fin 256

/-- Go `error` values that the package produces or passes on. -/
inductive Error where
  | EOF
  | ErrUnexpectedEOF
  | io (code : Nat)
  | wrap (ctx : String) (inner : Error)
  | invalidHeader (buf : List Byte)
  | writeFailed (inner : Error) (i : Nat) (stop : Nat) (n : Nat)
  deriving DecidableEq, Repr

/-- The constant `chunkSize = 1 << 13`. -/
def chunkSize : Nat := 2 ^ 13

/-- The constant `HASH_LEN`. -/
def HASH_LEN : Nat := 8

/-- The constant `TLS_HEADER_LEN`. -/
def TLS_HEADER_LEN : Nat := 5

/-! ## The underlying connection -/

/-- A run of bytes that arrives together, and the error (if any) that the
connection reports with the read that uses the run up. -/
structure Segment where
  data : List Byte
  err : Option Error
  deriving DecidableEq, Repr

/-- The answer of the underlying connection to one `Write` call: the count it
reports is `min n (len p)`. -/
structure WriteReply where
  n : Nat
  err : Option Error
  deriving DecidableEq, Repr

/-- The type `trojan.Option`, with the two fields the package sets. -/
structure TrojanOption where
  ServerName : String
  SkipCertVerify : Bool
  deriving DecidableEq, Repr

/-- The state of the underlying `net.Conn`. -/
structure NetConn where
  incoming : List Segment
  replies : List WriteReply
  sent : List (List Byte)
  handshakes : List TrojanOption
  deriving DecidableEq, Repr

/-- The call `conn.Read(b)` with `len(b) = len`: the bytes put in `b[:n]` and
the error.  At the end of the incoming data it reports `io.EOF`. -/
def NetConn.Read (c : NetConn) (len : Nat) : NetConn × List Byte × Option Error :=
  match c.incoming with
  | [] => (c, [], some Error.EOF)
  | seg :: rest =>
    if len < seg.data.length then
      ({ c with incoming := { seg with data := seg.data.drop len } :: rest },
        seg.data.take len, none)
    else
      ({ c with incoming := rest }, seg.data, seg.err)

/-- The call `conn.Write(p)`: the count and the error.  A connection with no
scripted answer left accepts everything. -/
def NetConn.Write (c : NetConn) (p : List Byte) : NetConn × Nat × Option Error :=
  match c.replies with
  | [] => ({ c with sent := c.sent ++ [p] }, p.length, none)
  | r :: rest => ({ c with replies := rest, sent := c.sent ++ [p] }, min r.n p.length, r.err)

/-- The loop of `io.ReadAtLeast(r, buf, len(buf))`:
`for n < min && err == nil { nn, err = r.Read(buf[n:]); n += nn }`.
`acc` holds `buf[:n]`. -/
def readAtLeastLoop (len : Nat) : Nat → NetConn → List Byte → NetConn × List Byte × Option Error
  | 0, c, acc => (c, acc, none)
  | fuel + 1, c, acc =>
    if acc.length < len then
      match c.Read (len - acc.length) with
      | (c1, d, none) => readAtLeastLoop len fuel c1 (acc ++ d)
      | (c1, d, some e) => (c1, acc ++ d, some e)
    else (c, acc, none)

/-- The function `io.ReadFull(conn, buf)` with `len(buf) = len`: the bytes put
in `buf[:n]` and the error.  Every turn of the loop but the last one uses up a
segment, so `incoming.length + 1` turns are enough
(`readAtLeastLoop_fuel`). -/
def ReadFull (c : NetConn) (len : Nat) : NetConn × List Byte × Option Error :=
  match readAtLeastLoop len (c.incoming.length + 1) c [] with
  | (c1, d, err) =>
    if len ≤ d.length then (c1, d, none)
    else if 0 < d.length ∧ err = some Error.EOF then (c1, d, some Error.ErrUnexpectedEOF)
    else (c1, d, err)

/-! ## The keyed hash stream -/

/-- The state of `hmac.New(sha1.New, key)`: the key and the data written so far. -/
structure Hasher where
  key : List Byte
  absorbed : List Byte
  deriving DecidableEq, Repr

/-- The method `hasher.Write(p)`. -/
def Hasher.Write (h : Hasher) (p : List Byte) : Hasher :=
  { h with absorbed := h.absorbed ++ p }

/-- The type `HashedConn`. -/
structure HashedConn where
  Conn : NetConn
  hasher : Hasher
  deriving DecidableEq, Repr

/-- The function `newHashedStream`. -/
def newHashedStream (conn : NetConn) (password : List Byte) : HashedConn :=
  { Conn := conn, hasher := { key := password, absorbed := [] } }

/-- The method `HashedConn.Read`. -/
def HashedConn.Read (h : HashedConn) (len : Nat) : HashedConn × List Byte × Option Error :=
  match h.Conn.Read len with
  | (c1, d, err) => ({ Conn := c1, hasher := h.hasher.Write d }, d, err)

/-- The method `Write` that `HashedConn` has from the embedded `net.Conn`. -/
def HashedConn.Write (h : HashedConn) (p : List Byte) : HashedConn × Nat × Option Error :=
  match h.Conn.Write p with
  | (c1, n, err) => ({ h with Conn := c1 }, n, err)

/-- What a TLS client does with the connection it is given: it reads, writes,
and ends with success or an error. -/
inductive Handshake where
  | done (err : Option Error)
  | read (len : Nat) (k : List Byte → Option Error → Handshake)
  | write (p : List Byte) (k : Nat → Option Error → Handshake)

/-- Runs a TLS client over a `HashedConn`. -/
def Handshake.run : Handshake → HashedConn → HashedConn × Option Error
  | Handshake.done err, h => (h, err)
  | Handshake.read len k, h =>
    match h.Read len with
    | (h1, d, err) => (k d err).run h1
  | Handshake.write p k, h =>
    match h.Write p with
    | (h1, n, err) => (k n err).run h1

/-- The parts of the program that are not in the package: the TLS client of
`trojan.New(option).StreamConn` and HMAC-SHA1, whose digest has 20 bytes. -/
structure Env where
  tls : TrojanOption → Handshake
  hmacSum : List Byte → List Byte → List Byte
  hmacSum_length : ∀ key data, (hmacSum key data).length = 20

/-- The call `trojan.New(option).StreamConn(hashedConn)`.  The option is
entered in the record `handshakes` of the connection. -/
def StreamConn (E : Env) (option : TrojanOption) (h : HashedConn) : HashedConn × Option Error :=
  (E.tls option).run
    { h with Conn := { h.Conn with handshakes := h.Conn.handshakes ++ [option] } }

/-- The call `hasher.Sum(nil)`. -/
def Hasher.Sum (E : Env) (h : Hasher) : List Byte :=
  E.hmacSum h.key h.absorbed

/-! ## The disguised connection -/

/-- The type `ShadowTls`. -/
structure ShadowTls where
  Conn : NetConn
  server : String
  password : List Byte
  remain : Int
  firstRequest : Bool
  deriving DecidableEq, Repr

/-- The function `NewShadowTls`. -/
def NewShadowTls (conn : NetConn) (server : String) (password : List Byte) : ShadowTls :=
  { Conn := conn, password := password, server := server, remain := 0, firstRequest := true }

/-- The buffer `b` after `data` has been copied to its front. -/
def fill (b data : List Byte) : List Byte :=
  data ++ b.drop data.length

/-- The call `binary.BigEndian.Uint16(p)`. -/
def beUint16 (p : List Byte) : Nat :=
  (p.getD 0 0).val * 256 + (p.getD 1 0).val

/-- The test `buf[0] != 0x17 || buf[1] != 0x3 || buf[2] != 0x3` of `ShadowTls.read`. -/
def badMagic (buf : List Byte) : Prop :=
  buf.getD 0 0 ≠ 0x17 ∨ buf.getD 1 0 ≠ 0x3 ∨ buf.getD 2 0 ≠ 0x3

instance (buf : List Byte) : Decidable (badMagic buf) := by
  unfold badMagic
  infer_instance

/-- The method `ShadowTls.read`: the state, the caller's buffer afterwards, the
count, the error. -/
def ShadowTls.read (s : ShadowTls) (b : List Byte) : ShadowTls × List Byte × Nat × Option Error :=
  match ReadFull s.Conn TLS_HEADER_LEN with
  | (c1, _, some err) =>
    ({ s with Conn := c1 }, b, 0, some (Error.wrap "shadowtls read failed" err))
  | (c1, buf, none) =>
    if badMagic buf then
      ({ s with Conn := c1 }, b, 0, some (Error.invalidHeader buf))
    else
      let length := beUint16 (buf.drop 3)
      if length > b.length then
        match c1.Read b.length with
        | (c2, d, some err) => ({ s with Conn := c2 }, fill b d, d.length, some err)
        | (c2, d, none) =>
          ({ s with Conn := c2, remain := (length : Int) - d.length }, fill b d, d.length, none)
      else
        match ReadFull c1 length with
        | (c2, d, err) => ({ s with Conn := c2 }, fill b d, d.length, err)

/-- The method `ShadowTls.Read`. -/
def ShadowTls.Read (s : ShadowTls) (b : List Byte) : ShadowTls × List Byte × Nat × Option Error :=
  if s.remain > 0 then
    let length : Int := if s.remain > b.length then b.length else s.remain
    match ReadFull s.Conn length.toNat with
    | (c1, d, some err) =>
      ({ s with Conn := c1 }, fill b d, d.length, some (Error.wrap "shadowtls Read failed with" err))
    | (c1, d, none) =>
      ({ s with Conn := c1, remain := s.remain - d.length }, fill b d, d.length, none)
  else
    s.read b

/-- The conversion `uint16(n)`. -/
def uint16 (n : Nat) : Nat := n % 2 ^ 16

/-- The octet `byte(n)`. -/
def byte (n : Nat) : Byte := ⟨n % 256, Nat.mod_lt n (by decide)⟩

/-- The two bytes `binary.Write(buf, binary.BigEndian, v)` appends for a `uint16`. -/
def putUint16 (v : Nat) : List Byte := [byte (v / 256), byte v]

/-- The contents of `buf` in `ShadowTls.write` when it is handed to the
connection. -/
def frameBytes (hashVal b : List Byte) : List Byte :=
  [0x17, 0x03, 0x03] ++ putUint16 (uint16 (b.length + hashVal.length)) ++ hashVal ++ b

/-- The option with which `ShadowTls.write` builds the TLS client. -/
def handshakeOption (s : ShadowTls) : TrojanOption :=
  { ServerName := s.server, SkipCertVerify := false }

/-- The method `ShadowTls.write`: the state, the count, the error. -/
def ShadowTls.write (E : Env) (s : ShadowTls) (b : List Byte) : ShadowTls × Nat × Option Error :=
  if s.firstRequest then
    let hashedConn := newHashedStream s.Conn s.password
    match StreamConn E (handshakeOption s) hashedConn with
    | (h1, some err) =>
      ({ s with Conn := h1.Conn }, 0, some (Error.wrap "tls connect failed with" err))
    | (h1, none) =>
      let hashVal := (h1.hasher.Sum E).take HASH_LEN
      match h1.Conn.Write (frameBytes hashVal b) with
      | (c2, _, err) => ({ s with Conn := c2, firstRequest := false }, b.length, err)
  else
    match s.Conn.Write (frameBytes [] b) with
    | (c2, _, err) => ({ s with Conn := c2 }, b.length, err)

/-- The slice `b[i:stop]`. -/
def slice (b : List Byte) (i stop : Nat) : List Byte :=
  (b.drop i).take (stop - i)

/-- The loop of `ShadowTls.Write`, from offset `i` on.  Every turn adds
`chunkSize` to `i`, so `len(b)` turns are enough (`WriteLoop_fuel`). -/
def WriteLoop (E : Env) (b : List Byte) : Nat → Nat → ShadowTls → ShadowTls × Nat × Option Error
  | 0, _, s => (s, b.length, none)
  | fuel + 1, i, s =>
    if i < b.length then
      let stop := if i + chunkSize > b.length then b.length else i + chunkSize
      match s.write E (slice b i stop) with
      | (s1, n, some err) => (s1, n, some (Error.writeFailed err i stop n))
      | (s1, _, none) => WriteLoop E b fuel (i + chunkSize) s1
    else (s, b.length, none)

/-- The method `ShadowTls.Write`. -/
def ShadowTls.Write (E : Env) (s : ShadowTls) (b : List Byte) : ShadowTls × Nat × Option Error :=
  WriteLoop E b b.length 0 s

/-- The handshake that `ShadowTls.write` runs when `firstRequest` is set: the
hashed stream it leaves and its outcome. -/
def relay (E : Env) (s : ShadowTls) : HashedConn × Option Error :=
  StreamConn E (handshakeOption s) (newHashedStream s.Conn s.password)

/-- The value `hashVal` that `ShadowTls.write` takes from the handshake. -/
def handshakeTag (E : Env) (s : ShadowTls) : List Byte :=
  ((relay E s).1.hasher.Sum E).take HASH_LEN

/-- A caller that calls `Write` with each payload in turn, whatever the calls
return: the state afterwards. -/
def Writes (E : Env) : ShadowTls → List (List Byte) → ShadowTls
  | s, [] => s
  | s, p :: ps => Writes E (s.Write E p).1 ps

/-- The two bytes of the big-endian encoding of `n < 2 ^ 16`. -/
def bigEndian16 (n : Nat) : List Byte := [byte (n / 256), byte (n % 256)]

/-! ## Sample environments -/

/-- A TLS client that sends two bytes, reads up to four and succeeds if the
read did. -/
def sampleTls : Handshake :=
  Handshake.write [1, 2] (fun _ _ => Handshake.read 4 (fun _ err => Handshake.done err))

/-- An environment with `sampleTls` and a stand-in digest of 20 bytes. -/
def sampleEnv : Env where
  tls := fun _ => sampleTls
  hmacSum := fun key data => (key ++ data ++ List.replicate 20 0).take 20
  hmacSum_length := by
    intro key data
    simp only [List.length_take, List.length_append, List.length_replicate]
    omega

/-- An environment whose TLS client fails at once. -/
def failingEnv : Env where
  tls := fun _ => Handshake.done (some (Error.io 1))
  hmacSum := fun _ _ => List.replicate 20 0
  hmacSum_length := by
    intro key data
    simp

/-- A connection that delivers `segs` and accepts every write. -/
def connOf (segs : List Segment) : NetConn :=
  { incoming := segs, replies := [], sent := [], handshakes := [] }

/-- The bytes of the string "hello". -/
def hello : List Byte := [104, 101, 108, 108, 111]

/-- The bytes of the string "world". -/
def world : List Byte := [119, 111, 114, 108, 100]

/-- A fresh connection for the server "example.com" with secret "hunter2" over a
connection that will deliver three bytes. -/
def sampleConn : ShadowTls :=
  NewShadowTls (connOf [⟨[9, 8, 7], none⟩]) "example.com" [104, 117, 110, 116, 101, 114, 50]

/-- A fresh connection whose underlying connection answers the second `Write`
it gets (the first frame) with the count 3 and no error. -/
def shortWriteConn : ShadowTls :=
  NewShadowTls
    { incoming := [⟨[9, 8, 7], none⟩], replies := [⟨2, none⟩, ⟨3, none⟩], sent := [],
      handshakes := [] }
    "example.com" [104, 117, 110, 116, 101, 114, 50]

/-- A fresh reader over a connection that delivers a header announcing two
bytes, one byte, and then ends. -/
def truncatedConn : ShadowTls :=
  NewShadowTls (connOf [⟨[0x17, 0x03, 0x03, 0, 2, 9], none⟩]) "example.com" []

/-- A fresh reader over a connection that delivers a header with a wrong first
byte, followed by two more bytes. -/
def corruptConn : ShadowTls :=
  NewShadowTls (connOf [⟨[0x16, 0x03, 0x03, 0, 2, 9, 9], none⟩]) "example.com" []

/-- Every scripted answer of the connection to a `Write` is a success. -/
def WritesSucceed (c : NetConn) : Prop :=
  ∀ r ∈ c.replies, r.err = none

instance (c : NetConn) : Decidable (WritesSucceed c) := by
  unfold WritesSucceed
  infer_instance

/-- The consecutive pieces of at most `chunkSize` bytes of `b` from offset `i`
on; `len(b)` turns are enough. -/
def chunksFrom (b : List Byte) : Nat → Nat → List (List Byte)
  | 0, _ => []
  | fuel + 1, i =>
    if i < b.length then (b.drop i).take chunkSize :: chunksFrom b fuel (i + chunkSize) else []

/-- The consecutive pieces of at most `chunkSize` bytes of a payload. -/
def chunks (b : List Byte) : List (List Byte) :=
  chunksFrom b b.length 0

/-- The wire format of a frame with the given body: the three magic bytes, the
length of the body as a big-endian 16-bit number, the body. -/
def record (body : List Byte) : List Byte :=
  [0x17, 0x03, 0x03] ++ bigEndian16 body.length ++ body

/-- The frames for a list of payloads of which the first carries the tag. -/
def framesOf (tag : List Byte) : List (List Byte) → List (List Byte)
  | [] => []
  | p :: ps => record (tag ++ p) :: ps.map record

/-- The tag that the next `write` puts in its frame. -/
def nextTag (E : Env) (s : ShadowTls) : List Byte :=
  if s.firstRequest then handshakeTag E s else []

/-- The connection to which the next `write` hands its frame. -/
def frameConn (E : Env) (s : ShadowTls) : NetConn :=
  if s.firstRequest then (relay E s).1.Conn else s.Conn

/-- The handshake of the next `write`, if one is due, succeeds. -/
def HandshakeOk (E : Env) (s : ShadowTls) : Prop :=
  s.firstRequest = true → (relay E s).2 = none

instance (E : Env) (s : ShadowTls) : Decidable (HandshakeOk E s) := by
  unfold HandshakeOk
  infer_instance

/-- No segment of the incoming data carries an error: the connection delivers
its data and then reports `io.EOF`. -/
def Reliable (c : NetConn) : Prop :=
  ∀ seg ∈ c.incoming, seg.err = none

instance (c : NetConn) : Decidable (Reliable c) := by
  unfold Reliable
  infer_instance

/-- The bytes that the connection will still deliver. -/
def pending (c : NetConn) : List Byte :=
  (c.incoming.map Segment.data).flatten

/-- The wire bytes of a sequence of frames with the given bodies. -/
def wire (bodies : List (List Byte)) : List Byte :=
  (bodies.map record).flatten

/-- A caller that calls `Read` with each buffer in turn: for every call the
bytes returned (`b[:n]`), the error, and `remain` after the call. -/
def ReadTrace : ShadowTls → List (List Byte) → List (List Byte × Option Error × Int)
  | _, [] => []
  | s, b :: bs =>
    match s.Read b with
    | (s1, b1, n, err) => (b1.take n, err, s1.remain) :: ReadTrace s1 bs

/-- All the bytes that the calls of `ReadTrace` returned, in order. -/
def ReadBytes (s : ShadowTls) (bufs : List (List Byte)) : List Byte :=
  ((ReadTrace s bufs).map (fun r => r.1)).flatten

/-- The reader has `cur` left to deliver of the frame it is consuming, and the
connection, which is reliable, will deliver `cur` and then `tail`. -/
def Feeds (s : ShadowTls) (cur tail : List Byte) : Prop :=
  Reliable s.Conn ∧ s.remain = cur.length ∧ pending s.Conn = cur ++ tail

/-- The state after the calls of `ReadTrace`. -/
def Reads : ShadowTls → List (List Byte) → ShadowTls
  | s, [] => s
  | s, b :: bs => Reads (s.Read b).1 bs

/-- A fresh reader over a connection that delivers a frame with the body
1 2 3 4 in two segments, the first of which ends after the first body byte. -/
def splitFrameConn : ShadowTls :=
  NewShadowTls (connOf [⟨[0x17, 0x03, 0x03, 0, 4, 1], none⟩, ⟨[2, 3, 4], none⟩]) "example.com" []

/-- A fresh reader over a connection that delivers, in one segment, the frames
that `Write("hello")` on the sample connection sent after the handshake. -/
def echoConn : ShadowTls :=
  NewShadowTls
    (connOf [⟨((Writes sampleEnv sampleConn [hello]).Conn.sent.drop
      (relay sampleEnv sampleConn).1.Conn.sent.length).flatten, none⟩])
    "example.com" [104, 117, 110, 116, 101, 114, 50]

/-- A fresh reader over a connection that delivers a frame with the body
1 2 3 4 in one segment. -/
def wholeFrameConn : ShadowTls :=
  NewShadowTls (connOf [⟨[0x17, 0x03, 0x03, 0, 4, 1, 2, 3, 4], none⟩]) "example.com" []

/-- A call that a client makes on a `HashedConn`. -/
inductive HashedOp where
  | read (len : Nat)
  | write (p : List Byte)

/-- A client that makes the given calls on a `HashedConn` in turn: the stream
afterwards and, for every `Read`, the bytes that it returned (`b[:n]`). -/
def HashedConn.calls : HashedConn → List HashedOp → HashedConn × List (List Byte)
  | h, [] => (h, [])
  | h, HashedOp.read len :: ops =>
    match h.Read len with
    | (h1, d, _) => ((HashedConn.calls h1 ops).1, d :: (HashedConn.calls h1 ops).2)
  | h, HashedOp.write p :: ops => HashedConn.calls (h.Write p).1 ops

/-- The bytes that a TLS client gets from its reads on a connection, in order:
what the remote party sent during the exchange. -/
def Handshake.received : Handshake → NetConn → List Byte
  | Handshake.done _, _ => []
  | Handshake.read len k, c =>
    match c.Read len with
    | (c1, d, err) => d ++ (k d err).received c1
  | Handshake.write p k, c =>
    match c.Write p with
    | (c1, n, err) => (k n err).received c1

/-- The bytes read from the underlying connection during the handshake that
`ShadowTls.write` runs when `firstRequest` is set. -/
def observed (E : Env) (s : ShadowTls) : List Byte :=
  (E.tls (handshakeOption s)).received
    { s.Conn with handshakes := s.Conn.handshakes ++ [handshakeOption s] }

/-- A fresh connection whose underlying connection accepts the write of the
handshake and the first frame and answers the write of the second frame with an
error. -/
def failingWriteConn : ShadowTls :=
  NewShadowTls
    { incoming := [⟨[9, 8, 7], none⟩],
      replies := [⟨2, none⟩, ⟨8205, none⟩, ⟨0, some (Error.io 7)⟩], sent := [],
      handshakes := [] }
    "example.com" [104, 117, 110, 116, 101, 114, 50]

/-- What a caller knows of the frame that the reader is consuming: the length
that its header declared and the number of its body bytes that `Read` calls
have returned so far.  Before the first frame both are 0. -/
structure FrameProgress where
  declared : Nat
  returned : Nat
  deriving DecidableEq, Repr

/-- The frame progress after the call `s.Read(b)`, given that the call returned
no error.  When the frame has been returned in full the call starts on the next
frame, whose declared length is the length field of the header that the call
reads; otherwise the call goes on with the same frame. -/
def FrameProgress.step (g : FrameProgress) (s : ShadowTls) (b : List Byte) : FrameProgress :=
  if g.returned = g.declared then
    { declared := beUint16 ((ReadFull s.Conn TLS_HEADER_LEN).2.1.drop 3),
      returned := (s.Read b).2.2.1 }
  else
    { declared := g.declared, returned := g.returned + (s.Read b).2.2.1 }

/-- The frame progress after the calls of `ReadTrace`. -/
def ReadsProgress : ShadowTls → FrameProgress → List (List Byte) → FrameProgress
  | _, g, [] => g
  | s, g, b :: bs => ReadsProgress (s.Read b).1 (g.step s b) bs

/-- A fresh reader over a connection that delivers a frame with the body
1 2 3 4, in two segments, and then a header that is cut off. -/
def twoFrameConn : ShadowTls :=
  NewShadowTls
    (connOf [⟨[0x17, 0x03, 0x03, 0, 4, 1], none⟩, ⟨[2, 3, 4, 0x17, 0x03], none⟩])
    "example.com" []

/-! ## Basic facts -/

theorem hmacSum_take_length (E : Env) (key data : List Byte) :
    ((E.hmacSum key data).take HASH_LEN).length = 8 := by
  simp [List.length_take, E.hmacSum_length, HASH_LEN]

theorem handshakeTag_length (E : Env) (s : ShadowTls) : (handshakeTag E s).length = 8 := by
  unfold handshakeTag Hasher.Sum
  exact hmacSum_take_length E _ _

theorem NetConn.Write_logged (c : NetConn) (p : List Byte) : (c.Write p).1.sent = c.sent ++ [p] := by
  unfold NetConn.Write
  cases c.replies <;> rfl

theorem NetConn.Write_handshakes (c : NetConn) (p : List Byte) :
    (c.Write p).1.handshakes = c.handshakes := by
  unfold NetConn.Write
  cases c.replies <;> rfl

theorem NetConn.Read_handshakes (c : NetConn) (len : Nat) :
    (c.Read len).1.handshakes = c.handshakes := by
  unfold NetConn.Read
  cases c.incoming with
  | nil => rfl
  | cons seg rest => by_cases h : len < seg.data.length <;> simp [h]

theorem Handshake.run_handshakes (p : Handshake) (h : HashedConn) :
    (p.run h).1.Conn.handshakes = h.Conn.handshakes := by
  induction p generalizing h with
  | done err => rfl
  | read len k ih =>
    simp only [Handshake.run, HashedConn.Read]
    rw [ih]
    exact NetConn.Read_handshakes _ _
  | write p k ih =>
    simp only [Handshake.run, HashedConn.Write]
    rw [ih]
    exact NetConn.Write_handshakes _ _

theorem relay_handshakes (E : Env) (s : ShadowTls) :
    (relay E s).1.Conn.handshakes = s.Conn.handshakes ++ [handshakeOption s] := by
  unfold relay StreamConn
  rw [Handshake.run_handshakes]
  rfl

/-- The method `write` when the handshake has been done before. -/
theorem write_later (E : Env) (s : ShadowTls) (b : List Byte) (h : s.firstRequest = false) :
    s.write E b = ({ s with Conn := (s.Conn.Write (frameBytes [] b)).1 }, b.length,
      (s.Conn.Write (frameBytes [] b)).2.2) := by
  simp [ShadowTls.write, h]

/-- The method `write` when the handshake is due and succeeds. -/
theorem write_first (E : Env) (s : ShadowTls) (b : List Byte) (h : s.firstRequest = true)
    (hs : (relay E s).2 = none) :
    s.write E b =
      ({ s with Conn := ((relay E s).1.Conn.Write (frameBytes (handshakeTag E s) b)).1,
                firstRequest := false }, b.length,
        ((relay E s).1.Conn.Write (frameBytes (handshakeTag E s) b)).2.2) := by
  unfold relay at hs
  unfold ShadowTls.write
  rw [if_pos h]
  rcases hr : StreamConn E (handshakeOption s) (newHashedStream s.Conn s.password) with ⟨h1, e⟩
  rw [hr] at hs
  simp only at hs
  subst hs
  simp [handshakeTag, relay, hr]

/-- The method `write` when the handshake is due and fails. -/
theorem write_first_failed (E : Env) (s : ShadowTls) (b : List Byte) (h : s.firstRequest = true)
    (err : Error) (hs : (relay E s).2 = some err) :
    s.write E b = ({ s with Conn := (relay E s).1.Conn }, 0,
      some (Error.wrap "tls connect failed with" err)) := by
  unfold relay at hs
  unfold ShadowTls.write
  rw [if_pos h]
  rcases hr : StreamConn E (handshakeOption s) (newHashedStream s.Conn s.password) with ⟨h1, e⟩
  rw [hr] at hs
  simp only at hs
  subst hs
  simp [relay, hr]

theorem slice_all (b : List Byte) : slice b 0 b.length = b := by
  simp [slice]

theorem Write_single_state (E : Env) (s : ShadowTls) (b : List Byte) (h0 : 0 < b.length)
    (h1 : b.length ≤ chunkSize) : (s.Write E b).1 = (s.write E b).1 := by
  unfold ShadowTls.Write
  obtain ⟨n, hn⟩ : ∃ n, b.length = n + 1 := ⟨b.length - 1, by omega⟩
  rw [hn]
  unfold WriteLoop
  rw [if_pos h0]
  have hstop : (if 0 + chunkSize > b.length then b.length else 0 + chunkSize) = b.length := by
    split <;> omega
  simp only [hstop, slice_all]
  rcases hw : s.write E b with ⟨s1, m, e⟩
  cases e with
  | some err => rfl
  | none =>
    simp only
    cases n with
    | zero => rfl
    | succ k =>
      unfold WriteLoop
      rw [if_neg (by omega)]

/-- C2: for a chunk `b` of at most 8192 bytes, `write` hands the connection one
buffer: 0x17 0x03 0x03, the big-endian 16-bit encoding of `len(tag) + len(b)`
(which decodes to that number), the tag, then `b`; the tag is empty once the
handshake has been done and is the 8-byte handshake tag when `firstRequest` is
set and the handshake succeeds.  On a fresh connection `Write("hello")` sends
17 03 03 00 0D, the tag, "hello", and a following `Write("world")` sends
17 03 03 00 05, "world". -/
theorem write_frame_layout (E : Env) (s : ShadowTls) (b : List Byte) (hb : b.length ≤ 8192) :
    (s.firstRequest = false →
      (s.write E b).1.Conn.sent =
        s.Conn.sent ++ [[0x17, 0x03, 0x03] ++ bigEndian16 (0 + b.length) ++ [] ++ b]) ∧
    (s.firstRequest = true → (relay E s).2 = none →
      (handshakeTag E s).length = 8 ∧
      (s.write E b).1.Conn.sent =
        (relay E s).1.Conn.sent ++
          [[0x17, 0x03, 0x03] ++ bigEndian16 (8 + b.length) ++ handshakeTag E s ++ b]) ∧
    beUint16 (bigEndian16 (0 + b.length)) = 0 + b.length ∧
    beUint16 (bigEndian16 (8 + b.length)) = 8 + b.length ∧
    (∀ (c : NetConn) (server : String) (password : List Byte),
      (relay E (NewShadowTls c server password)).2 = none →
      ((NewShadowTls c server password).Write E hello).1.Conn.sent =
        (relay E (NewShadowTls c server password)).1.Conn.sent ++
          [[0x17, 0x03, 0x03, 0x00, 0x0D] ++
            handshakeTag E (NewShadowTls c server password) ++ hello] ∧
      ((((NewShadowTls c server password).Write E hello).1).Write E world).1.Conn.sent =
        ((NewShadowTls c server password).Write E hello).1.Conn.sent ++
          [[0x17, 0x03, 0x03, 0x00, 0x05] ++ world]) := by
  have hbyte : ∀ n : Nat, n < 65536 → beUint16 (bigEndian16 n) = n := by
    intro n hn
    simp only [beUint16, bigEndian16, byte, List.getD_cons_zero, List.getD_cons_succ]
    omega
  have hframe : ∀ (tag p : List Byte), p.length + tag.length < 65536 →
      frameBytes tag p = [0x17, 0x03, 0x03] ++ bigEndian16 (tag.length + p.length) ++ tag ++ p := by
    intro tag p hlt
    have h1 : uint16 (p.length + tag.length) = tag.length + p.length := by
      unfold uint16
      omega
    have h2 : ∀ n : Nat, byte (n % 256) = byte n := by
      intro n
      simp [byte]
    simp only [frameBytes, putUint16, bigEndian16, h1, h2]
  refine ⟨?_, ?_, hbyte _ (by omega), hbyte _ (by omega), ?_⟩
  · intro hf
    rw [write_later E s b hf]
    simp only [NetConn.Write_logged]
    rw [hframe [] b (by simp; omega)]
    simp
  · intro hf hs
    refine ⟨handshakeTag_length E s, ?_⟩
    rw [write_first E s b hf hs]
    simp only [NetConn.Write_logged]
    rw [hframe _ b (by rw [handshakeTag_length]; omega), handshakeTag_length]
  · intro c server password hs
    have hf : (NewShadowTls c server password).firstRequest = true := rfl
    have e1 : ((NewShadowTls c server password).Write E hello).1 =
        ((NewShadowTls c server password).write E hello).1 :=
      Write_single_state E _ hello (by decide) (by decide)
    have hf1 : ((NewShadowTls c server password).Write E hello).1.firstRequest = false := by
      rw [e1, write_first E _ hello hf hs]
    refine ⟨?_, ?_⟩
    · rw [e1, write_first E _ hello hf hs]
      simp only [NetConn.Write_logged]
      rw [hframe _ hello (by rw [handshakeTag_length]; decide), handshakeTag_length]
      rfl
    · rw [Write_single_state E _ world (by decide) (by decide), write_later E _ world hf1]
      simp only [NetConn.Write_logged]
      rw [hframe [] world (by decide)]
      rfl

/-! ## The write side -/

theorem WriteLoop_later (E : Env) (b : List Byte) (fuel i : Nat) (s : ShadowTls)
    (h : s.firstRequest = false) :
    (WriteLoop E b fuel i s).1.firstRequest = false ∧
      (WriteLoop E b fuel i s).1.Conn.handshakes = s.Conn.handshakes := by
  induction fuel generalizing i s with
  | zero => exact ⟨h, rfl⟩
  | succ n ih =>
    unfold WriteLoop
    by_cases hi : i < b.length
    · rw [if_pos hi]
      simp only [write_later E s _ h]
      cases he : (s.Conn.Write (frameBytes []
          (slice b i (if i + chunkSize > b.length then b.length else i + chunkSize)))).2.2 with
      | some err => exact ⟨h, NetConn.Write_handshakes _ _⟩
      | none =>
        simp only
        have := ih (i + chunkSize) { s with Conn := (s.Conn.Write (frameBytes []
          (slice b i (if i + chunkSize > b.length then b.length else i + chunkSize)))).1 } h
        refine ⟨this.1, ?_⟩
        rw [this.2]
        exact NetConn.Write_handshakes _ _
    · rw [if_neg hi]
      exact ⟨h, rfl⟩

theorem Writes_later (E : Env) (ps : List (List Byte)) (s : ShadowTls)
    (h : s.firstRequest = false) :
    (Writes E s ps).firstRequest = false ∧ (Writes E s ps).Conn.handshakes = s.Conn.handshakes := by
  induction ps generalizing s with
  | nil => exact ⟨h, rfl⟩
  | cons p ps ih =>
    have h1 := WriteLoop_later E p p.length 0 s h
    have h2 := ih (s.Write E p).1 h1.1
    exact ⟨h2.1, h2.2.trans h1.2⟩

/-- The stop offset of the chunk that starts at `i`. -/
theorem WriteLoop_succ (E : Env) (b : List Byte) (fuel i : Nat) (s : ShadowTls) :
    WriteLoop E b (fuel + 1) i s =
      if i < b.length then
        match s.write E (slice b i (if i + chunkSize > b.length then b.length else i + chunkSize)) with
        | (s1, n, some err) =>
          (s1, n, some (Error.writeFailed err i
            (if i + chunkSize > b.length then b.length else i + chunkSize) n))
        | (s1, _, none) => WriteLoop E b fuel (i + chunkSize) s1
      else (s, b.length, none) := rfl

/-- The first turn of the loop of `Write` on a payload that is not empty. -/
theorem Write_first_turn (E : Env) (s : ShadowTls) (b : List Byte) (hb : b ≠ []) :
    ∃ stop fuel, s.Write E b =
      match s.write E (slice b 0 stop) with
      | (s1, n, some err) => (s1, n, some (Error.writeFailed err 0 stop n))
      | (s1, _, none) => WriteLoop E b fuel (0 + chunkSize) s1 := by
  have h0 : 0 < b.length := List.length_pos.mpr hb
  obtain ⟨n, hn⟩ : ∃ n, b.length = n + 1 := ⟨b.length - 1, by omega⟩
  refine ⟨if 0 + chunkSize > b.length then b.length else 0 + chunkSize, n, ?_⟩
  have e : s.Write E b = WriteLoop E b (n + 1) 0 s := by
    unfold ShadowTls.Write
    rw [hn]
  rw [e, WriteLoop_succ, if_pos h0]

/-- C8 (as stated, refuted): the underlying connection answers the write of the
18-byte first frame with the count 3 and a nil error, and `write` and `Write`
return the count 5 and a nil error. -/
theorem short_write_not_reported :
    (frameBytes (handshakeTag sampleEnv shortWriteConn) hello).length = 18 ∧
    ((relay sampleEnv shortWriteConn).1.Conn.Write
      (frameBytes (handshakeTag sampleEnv shortWriteConn) hello)).2 = (3, none) ∧
    (shortWriteConn.write sampleEnv hello).2 = (5, none) ∧
    (shortWriteConn.Write sampleEnv hello).2 = (5, none) := by
  decide

/-- C8 (amended): `write` returns the length of the chunk and exactly the error
that the underlying connection's `Write` of the frame returns, whatever byte
count that `Write` reports; so it fails exactly when that `Write` returns an
error. -/
theorem write_returns_conn_error (E : Env) (s : ShadowTls) (b : List Byte) :
    (s.firstRequest = false →
      (s.write E b).2 = (b.length, (s.Conn.Write (frameBytes [] b)).2.2)) ∧
    (s.firstRequest = true → (relay E s).2 = none →
      (s.write E b).2 =
        (b.length, ((relay E s).1.Conn.Write (frameBytes (handshakeTag E s) b)).2.2)) := by
  refine ⟨?_, ?_⟩
  · intro hf
    rw [write_later E s b hf]
  · intro hf hs
    rw [write_first E s b hf hs]

theorem write_returns_conn_error_witness :
    shortWriteConn.firstRequest = true ∧ (relay sampleEnv shortWriteConn).2 = none ∧
    (shortWriteConn.write sampleEnv hello).2 = (5, none) :=
  ⟨rfl, by decide, by
    rw [(write_returns_conn_error sampleEnv shortWriteConn hello).2 rfl (by decide)]
    decide⟩

/-- C9 (as stated, refuted): the handshake started by the first write on the
sample connection has the server name of the connection and its
`SkipCertVerify` field is false. -/
theorem handshake_verifies_certificate :
    (sampleConn.write sampleEnv hello).1.Conn.handshakes =
      [{ ServerName := "example.com", SkipCertVerify := false }] ∧
    (sampleConn.write sampleEnv hello).1.Conn.handshakes.map TrojanOption.SkipCertVerify
      ≠ [true] := by
  decide

/-- C9 (amended): the handshake started by a write with `firstRequest` set is
configured with the connection's server identity as the server name and with
`SkipCertVerify` false, whether it succeeds or fails; it is the only handshake
that the write starts. -/
theorem handshake_parameters (E : Env) (s : ShadowTls) (b : List Byte)
    (hf : s.firstRequest = true) :
    (s.write E b).1.Conn.handshakes =
      s.Conn.handshakes ++ [{ ServerName := s.server, SkipCertVerify := false }] := by
  cases hs : (relay E s).2 with
  | none =>
    rw [write_first E s b hf hs]
    simp only [NetConn.Write_handshakes, relay_handshakes]
    rfl
  | some err =>
    rw [write_first_failed E s b hf err hs]
    simp only [relay_handshakes]
    rfl

theorem handshake_parameters_witness :
    sampleConn.firstRequest = true ∧
    (sampleConn.write sampleEnv hello).1.Conn.handshakes =
      [] ++ [{ ServerName := "example.com", SkipCertVerify := false }] :=
  ⟨rfl, handshake_parameters sampleEnv sampleConn hello rfl⟩

/-- C10 (as stated, refuted): when the handshake fails, the next `Write`
attempts it again: after two `Write` calls two handshakes have been started. -/
theorem failed_handshake_is_repeated :
    (relay failingEnv sampleConn).2 ≠ none ∧
    (Writes failingEnv sampleConn [hello]).Conn.handshakes.length = 1 ∧
    (Writes failingEnv sampleConn [hello, world]).Conn.handshakes.length = 2 := by
  decide

/-- C10 (amended): a `Write` of a non-empty payload on a connection with
`firstRequest` set attempts the handshake exactly once; if the attempt succeeds,
no `Write` of any later sequence of calls attempts it again; if it fails,
`firstRequest` stays set, so the next non-empty `Write` attempts it again. -/
theorem handshake_once_after_success (E : Env) (s : ShadowTls) (b : List Byte)
    (ps : List (List Byte)) (hf : s.firstRequest = true) (hb : b ≠ []) :
    (s.Write E b).1.Conn.handshakes = s.Conn.handshakes ++ [handshakeOption s] ∧
    ((relay E s).2 = none →
      (Writes E (s.Write E b).1 ps).Conn.handshakes =
        s.Conn.handshakes ++ [handshakeOption s]) ∧
    ((relay E s).2 ≠ none → (s.Write E b).1.firstRequest = true) := by
  obtain ⟨stop, fuel, e⟩ := Write_first_turn E s b hb
  cases hs : (relay E s).2 with
  | some err =>
    rw [write_first_failed E s _ hf err hs] at e
    simp only at e
    rw [e]
    simp [relay_handshakes, hf]
  | none =>
    rw [write_first E s _ hf hs] at e
    have key : (s.Write E b).1.firstRequest = false ∧
        (s.Write E b).1.Conn.handshakes = s.Conn.handshakes ++ [handshakeOption s] := by
      rw [e]
      cases he : ((relay E s).1.Conn.Write
          (frameBytes (handshakeTag E s) (slice b 0 stop))).2.2 with
      | some err =>
        simp [he, NetConn.Write_handshakes, relay_handshakes]
      | none =>
        simp only [he]
        have h1 := WriteLoop_later E b fuel (0 + chunkSize)
          { s with Conn := ((relay E s).1.Conn.Write
              (frameBytes (handshakeTag E s) (slice b 0 stop))).1, firstRequest := false } rfl
        refine ⟨h1.1, ?_⟩
        rw [h1.2]
        simp only [NetConn.Write_handshakes, relay_handshakes]
    refine ⟨key.2, ?_, ?_⟩
    · intro _
      rw [(Writes_later E ps _ key.1).2, key.2]
    · intro h
      exact absurd rfl h

theorem handshake_once_after_success_witness :
    sampleConn.firstRequest = true ∧ hello ≠ [] ∧ (relay sampleEnv sampleConn).2 = none ∧
    (Writes sampleEnv (sampleConn.Write sampleEnv hello).1 [world, hello]).Conn.handshakes =
      [] ++ [handshakeOption sampleConn] :=
  ⟨rfl, by decide, by decide,
    (handshake_once_after_success sampleEnv sampleConn hello [world, hello] rfl
      (by decide)).2.1 (by decide)⟩

/-! ## The read side: the header step -/

/-- The method `Read` while no frame is being consumed. -/
theorem Read_awaiting (s : ShadowTls) (b : List Byte) (hr : s.remain ≤ 0) :
    s.Read b = s.read b := by
  unfold ShadowTls.Read
  rw [if_neg (by omega)]

/-- The method `read` when the header cannot be read in full. -/
theorem read_header_failed (s : ShadowTls) (b : List Byte) (err : Error)
    (h : (ReadFull s.Conn TLS_HEADER_LEN).2.2 = some err) :
    s.read b = ({ s with Conn := (ReadFull s.Conn TLS_HEADER_LEN).1 }, b, 0,
      some (Error.wrap "shadowtls read failed" err)) := by
  unfold ShadowTls.read
  rcases hr : ReadFull s.Conn TLS_HEADER_LEN with ⟨c1, hdr, e⟩
  rw [hr] at h
  simp only at h
  subst h
  rfl

/-- The method `read` when the header has been read and its magic is wrong. -/
theorem read_header_invalid (s : ShadowTls) (b : List Byte)
    (h : (ReadFull s.Conn TLS_HEADER_LEN).2.2 = none)
    (hm : badMagic (ReadFull s.Conn TLS_HEADER_LEN).2.1) :
    s.read b = ({ s with Conn := (ReadFull s.Conn TLS_HEADER_LEN).1 }, b, 0,
      some (Error.invalidHeader (ReadFull s.Conn TLS_HEADER_LEN).2.1)) := by
  unfold ShadowTls.read
  rcases hr : ReadFull s.Conn TLS_HEADER_LEN with ⟨c1, hdr, e⟩
  rw [hr] at h hm
  simp only at h hm
  subst h
  simp only
  rw [if_pos hm]

/-- C7 (as stated, refuted): the header announces two bytes, the connection ends
after one; `Read` with a buffer of four bytes returns the count 1, with that
byte in the buffer, together with an error. -/
theorem Read_error_with_data :
    (truncatedConn.Read [0, 0, 0, 0]).2 = ([9, 0, 0, 0], 1, some Error.ErrUnexpectedEOF) := by
  decide

/-- C7 (amended): when `Read` fails in the header step, that is, the reader
awaits a header and the five header bytes cannot be read in full or do not
start with 0x17 0x03 0x03, it returns an error with the count 0 and leaves the
caller's buffer as it was. -/
theorem Read_header_error_no_data (s : ShadowTls) (b : List Byte) (hr : s.remain ≤ 0)
    (hbad : (ReadFull s.Conn TLS_HEADER_LEN).2.2 ≠ none ∨
      badMagic (ReadFull s.Conn TLS_HEADER_LEN).2.1) :
    (s.Read b).2.2.2 ≠ none ∧ (s.Read b).2.2.1 = 0 ∧ (s.Read b).2.1 = b := by
  rw [Read_awaiting s b hr]
  cases he : (ReadFull s.Conn TLS_HEADER_LEN).2.2 with
  | some err =>
    rw [read_header_failed s b err he]
    simp
  | none =>
    rcases hbad with h | h
    · exact absurd he h
    · rw [read_header_invalid s b he h]
      simp

theorem Read_header_error_no_data_witness :
    corruptConn.remain ≤ 0 ∧ badMagic (ReadFull corruptConn.Conn TLS_HEADER_LEN).2.1 ∧
    (corruptConn.Read [0, 0]).2.2.2 ≠ none ∧ (corruptConn.Read [0, 0]).2.2.1 = 0 ∧
    (corruptConn.Read [0, 0]).2.1 = [0, 0] :=
  ⟨by decide, by decide,
    Read_header_error_no_data corruptConn [0, 0] (by decide) (Or.inr (by decide))⟩

theorem write_frame_layout_witness :
    hello.length ≤ 8192 ∧
    (sampleConn.write sampleEnv hello).1.Conn.sent =
      [[1, 2], [0x17, 0x03, 0x03, 0x00, 0x0D, 104, 117, 110, 116, 101, 114, 50, 9,
        104, 101, 108, 108, 111]] :=
  ⟨by decide, by
    have h := (write_frame_layout sampleEnv sampleConn hello (by decide)).2.1 rfl (by decide)
    rw [h.2]
    decide⟩

/-! ## Chunks and frames -/

theorem byte_mod (n : Nat) : byte (n % 256) = byte n := by
  simp [byte]

theorem beUint16_bigEndian16 (n : Nat) (h : n < 65536) : beUint16 (bigEndian16 n) = n := by
  simp only [beUint16, bigEndian16, byte, List.getD_cons_zero, List.getD_cons_succ]
  omega

theorem frameBytes_eq_record (tag p : List Byte) (h : tag.length + p.length < 65536) :
    frameBytes tag p = record (tag ++ p) := by
  have h1 : uint16 (p.length + tag.length) = tag.length + p.length := by
    unfold uint16
    omega
  simp only [frameBytes, record, putUint16, bigEndian16, h1, byte_mod, List.length_append,
    List.append_assoc]

theorem slice_stop (b : List Byte) (i : Nat) :
    slice b i (if i + chunkSize > b.length then b.length else i + chunkSize) =
      (b.drop i).take chunkSize := by
  unfold slice
  split
  · rw [List.take_of_length_le (by simp), List.take_of_length_le (by simp; omega)]
  · simp

theorem chunksFrom_length_le (b : List Byte) (fuel i : Nat) :
    ∀ p ∈ chunksFrom b fuel i, p.length ≤ chunkSize := by
  induction fuel generalizing i with
  | zero => simp [chunksFrom]
  | succ n ih =>
    unfold chunksFrom
    split
    · intro p hp
      rcases List.mem_cons.mp hp with h | h
      · rw [h]
        simp
      · exact ih _ p h
    · simp

theorem chunksFrom_join (b : List Byte) (fuel i : Nat) (h : b.length ≤ fuel + i) :
    (chunksFrom b fuel i).flatten = b.drop i := by
  induction fuel generalizing i with
  | zero =>
    rw [List.drop_of_length_le (by omega)]
    rfl
  | succ n ih =>
    unfold chunksFrom
    split
    · rw [List.flatten_cons, ih (i + chunkSize) (by unfold chunkSize; omega), ← List.drop_drop,
        List.take_append_drop]
    · rw [List.drop_of_length_le (by omega)]
      rfl

theorem chunksFrom_count (b : List Byte) (fuel i : Nat) (h : b.length ≤ fuel + i) :
    (chunksFrom b fuel i).length = (b.length - i + 8191) / 8192 := by
  induction fuel generalizing i with
  | zero =>
    simp only [chunksFrom, List.length_nil]
    omega
  | succ n ih =>
    unfold chunksFrom
    split
    · rw [List.length_cons, ih (i + chunkSize) (by unfold chunkSize; omega)]
      unfold chunkSize
      omega
    · simp only [List.length_nil]
      omega

theorem chunksFrom_full (b : List Byte) (fuel i : Nat) (h : b.length ≤ fuel + i) :
    ∀ p ∈ (chunksFrom b fuel i).dropLast, p.length = chunkSize := by
  induction fuel generalizing i with
  | zero => simp [chunksFrom]
  | succ n ih =>
    unfold chunksFrom
    split
    · rename_i hi
      cases hrest : chunksFrom b n (i + chunkSize) with
      | nil => simp
      | cons q qs =>
        rw [List.dropLast_cons₂]
        intro p hp
        rcases List.mem_cons.mp hp with hp | hp
        · have hc := chunksFrom_count b n (i + chunkSize) (by unfold chunkSize; omega)
          rw [hrest, List.length_cons] at hc
          rw [hp, List.length_take, List.length_drop]
          unfold chunkSize at hc ⊢
          omega
        · rw [← hrest] at hp
          exact ih (i + chunkSize) (by unfold chunkSize; omega) p hp
    · simp

theorem chunks_nil : chunks [] = [] := rfl

theorem chunksFrom_succ (b : List Byte) (fuel i : Nat) :
    chunksFrom b (fuel + 1) i =
      if i < b.length then (b.drop i).take chunkSize :: chunksFrom b fuel (i + chunkSize)
      else [] := rfl

theorem chunks_ne_nil (b : List Byte) (h : b ≠ []) :
    chunks b = (b.drop 0).take chunkSize :: chunksFrom b (b.length - 1) (0 + chunkSize) := by
  have h0 : 0 < b.length := List.length_pos.mpr h
  have e : chunksFrom b b.length 0 = chunksFrom b (b.length - 1 + 1) 0 := by
    congr 1
    omega
  unfold chunks
  rw [e, chunksFrom_succ, if_pos h0]

/-! ## What a `Write` sends -/

theorem NetConn.Write_succeeds (c : NetConn) (p : List Byte) (h : WritesSucceed c) :
    (c.Write p).2.2 = none ∧ WritesSucceed (c.Write p).1 := by
  unfold NetConn.Write
  cases hr : c.replies with
  | nil =>
    refine ⟨rfl, ?_⟩
    intro r hr2
    simp only [hr] at hr2
    exact absurd hr2 (List.not_mem_nil r)
  | cons r rest =>
    unfold WritesSucceed at h
    rw [hr] at h
    exact ⟨h r (List.mem_cons_self r rest), fun q hq => h q (List.mem_cons_of_mem r hq)⟩

theorem framesOf_nil_tag (ps : List (List Byte)) : framesOf [] ps = ps.map record := by
  cases ps <;> rfl

theorem framesOf_append (tag : List Byte) (ps qs : List (List Byte)) (h : ps ≠ []) :
    framesOf tag (ps ++ qs) = framesOf tag ps ++ qs.map record := by
  cases ps with
  | nil => exact absurd rfl h
  | cons p ps => simp [framesOf]

theorem take_chunk_frame (tag b : List Byte) (i : Nat) (h : tag.length ≤ 8) :
    frameBytes tag ((b.drop i).take chunkSize) = record (tag ++ (b.drop i).take chunkSize) := by
  apply frameBytes_eq_record
  have : ((b.drop i).take chunkSize).length ≤ 8192 :=
    le_trans (List.length_take_le _ _) (by decide)
  omega

theorem WriteLoop_sent (E : Env) (b : List Byte) (fuel i : Nat) (s : ShadowTls)
    (hok : (WriteLoop E b fuel i s).2.2 = none) (h : s.firstRequest = false) :
    (WriteLoop E b fuel i s).1.Conn.sent = s.Conn.sent ++ (chunksFrom b fuel i).map record ∧
      (WriteLoop E b fuel i s).2.1 = b.length ∧
      (WriteLoop E b fuel i s).1.firstRequest = false := by
  induction fuel generalizing i s with
  | zero => simp [WriteLoop, chunksFrom, h]
  | succ n ih =>
    rw [WriteLoop_succ] at hok ⊢
    rw [chunksFrom_succ]
    by_cases hi : i < b.length
    · rw [if_pos hi] at hok ⊢
      rw [if_pos hi]
      rw [slice_stop, write_later E s _ h] at hok ⊢
      cases he : (s.Conn.Write (frameBytes [] ((b.drop i).take chunkSize))).2.2 with
      | some err =>
      rw [he] at hok
      cases hok
      | none =>
        simp only [he] at hok ⊢
        have := ih (i + chunkSize) _ hok h
        refine ⟨?_, this.2⟩
        rw [this.1, NetConn.Write_logged, take_chunk_frame [] b i (by simp)]
        simp
    · rw [if_neg hi]
      simp [hi, h]

theorem WriteLoop_ok (E : Env) (b : List Byte) (fuel i : Nat) (s : ShadowTls)
    (hw : WritesSucceed s.Conn) (h : s.firstRequest = false) :
    (WriteLoop E b fuel i s).2.2 = none ∧ WritesSucceed (WriteLoop E b fuel i s).1.Conn ∧
      (WriteLoop E b fuel i s).1.firstRequest = false := by
  induction fuel generalizing i s with
  | zero => exact ⟨rfl, hw, h⟩
  | succ n ih =>
    rw [WriteLoop_succ]
    by_cases hi : i < b.length
    · rw [if_pos hi, write_later E s _ h]
      have hc := NetConn.Write_succeeds s.Conn (frameBytes []
        (slice b i (if i + chunkSize > b.length then b.length else i + chunkSize))) hw
      simp only [hc.1]
      exact ih (i + chunkSize) _ hc.2 h
    · rw [if_neg hi]
      exact ⟨rfl, hw, h⟩

/-- The loop of `Write` on a payload that is not empty, with its first turn
written out. -/
theorem Write_unfold (E : Env) (s : ShadowTls) (b : List Byte) (hb : b ≠ []) :
    s.Write E b =
      match s.write E ((b.drop 0).take chunkSize) with
      | (s1, n, some err) =>
        (s1, n, some (Error.writeFailed err 0
          (if 0 + chunkSize > b.length then b.length else 0 + chunkSize) n))
      | (s1, _, none) => WriteLoop E b (b.length - 1) (0 + chunkSize) s1 := by
  have h0 : 0 < b.length := List.length_pos.mpr hb
  have e : s.Write E b = WriteLoop E b (b.length - 1 + 1) 0 s := by
    unfold ShadowTls.Write
    congr 1
    omega
  rw [e, WriteLoop_succ, if_pos h0, slice_stop]

theorem Write_nil (E : Env) (s : ShadowTls) : s.Write E [] = (s, 0, none) := rfl

/-- What a successful `Write` of a payload that is not empty has sent. -/
theorem Write_sent (E : Env) (s : ShadowTls) (b : List Byte) (hb : b ≠ [])
    (hok : (s.Write E b).2.2 = none) :
    HandshakeOk E s ∧
    (s.Write E b).1.Conn.sent = (frameConn E s).sent ++ framesOf (nextTag E s) (chunks b) ∧
    (s.Write E b).1.firstRequest = false ∧ (s.Write E b).2.1 = b.length := by
  rw [Write_unfold E s b hb] at hok ⊢
  rw [chunks_ne_nil b hb]
  cases hf : s.firstRequest with
  | false =>
    rw [write_later E s _ hf] at hok ⊢
    cases he : (s.Conn.Write (frameBytes [] ((b.drop 0).take chunkSize))).2.2 with
    | some err =>
      rw [he] at hok
      cases hok
    | none =>
      simp only [he] at hok ⊢
      have := WriteLoop_sent E b _ _ _ hok hf
      refine ⟨fun h => by simp [hf] at h, ?_, this.2.2, this.2.1⟩
      rw [this.1, NetConn.Write_logged, take_chunk_frame [] b 0 (by simp)]
      simp [frameConn, nextTag, hf, framesOf]
  | true =>
    cases hs : (relay E s).2 with
    | some err =>
      rw [write_first_failed E s _ hf err hs] at hok
      simp at hok
    | none =>
      rw [write_first E s _ hf hs] at hok ⊢
      cases he : ((relay E s).1.Conn.Write
          (frameBytes (handshakeTag E s) ((b.drop 0).take chunkSize))).2.2 with
      | some err =>
      rw [he] at hok
      cases hok
      | none =>
        simp only [he] at hok ⊢
        have := WriteLoop_sent E b _ _ _ hok rfl
        refine ⟨fun _ => hs, ?_, this.2.2, this.2.1⟩
        rw [this.1, NetConn.Write_logged,
          take_chunk_frame _ b 0 (le_of_eq (handshakeTag_length E s))]
        simp [frameConn, nextTag, hf, framesOf]

/-- A `Write` succeeds when the handshake, if due, succeeds and the connection
accepts the frames. -/
theorem Write_ok (E : Env) (s : ShadowTls) (b : List Byte) (hh : HandshakeOk E s)
    (hw : WritesSucceed (frameConn E s)) :
    (s.Write E b).2.2 = none ∧ HandshakeOk E (s.Write E b).1 ∧
      WritesSucceed (frameConn E (s.Write E b).1) := by
  by_cases hb : b = []
  · subst hb
    exact ⟨rfl, hh, hw⟩
  · rw [Write_unfold E s b hb]
    cases hf : s.firstRequest with
    | false =>
      simp only [frameConn, hf] at hw
      rw [write_later E s _ hf]
      have hc := NetConn.Write_succeeds s.Conn
        (frameBytes [] ((b.drop 0).take chunkSize)) hw
      simp only [hc.1]
      have h1 := WriteLoop_ok E b (b.length - 1) (0 + chunkSize)
        { s with Conn := (s.Conn.Write (frameBytes [] ((b.drop 0).take chunkSize))).1 } hc.2 hf
      refine ⟨h1.1, fun h => ?_, ?_⟩
      · rw [h1.2.2] at h
        exact absurd h (by simp)
      · simp only [frameConn, h1.2.2]
        exact h1.2.1
    | true =>
      have hs := hh hf
      simp only [frameConn, hf] at hw
      rw [write_first E s _ hf hs]
      have hc := NetConn.Write_succeeds (relay E s).1.Conn
        (frameBytes (handshakeTag E s) ((b.drop 0).take chunkSize)) hw
      simp only [hc.1]
      have h1 := WriteLoop_ok E b (b.length - 1) (0 + chunkSize)
        { s with
          Conn := ((relay E s).1.Conn.Write
            (frameBytes (handshakeTag E s) ((b.drop 0).take chunkSize))).1
          firstRequest := false } hc.2 rfl
      refine ⟨h1.1, fun h => ?_, ?_⟩
      · rw [h1.2.2] at h
        exact absurd h (by simp)
      · simp only [frameConn, h1.2.2]
        exact h1.2.1

theorem chunks_flatten (b : List Byte) : (chunks b).flatten = b := by
  unfold chunks
  rw [chunksFrom_join b b.length 0 (by omega)]
  rfl

theorem chunks_eq_nil (b : List Byte) (h : chunks b = []) : b = [] := by
  have := chunks_flatten b
  rw [h] at this
  exact this.symm

theorem chunks_all_flatten (ps : List (List Byte)) :
    ((ps.map chunks).flatten).flatten = ps.flatten := by
  induction ps with
  | nil => rfl
  | cons p ps ih => simp [chunks_flatten, ih]

theorem chunks_all_length_le (ps : List (List Byte)) :
    ∀ p ∈ (ps.map chunks).flatten, p.length ≤ 8192 := by
  intro p hp
  simp only [List.mem_flatten, List.mem_map] at hp
  obtain ⟨l, ⟨q, _, hq⟩, hl⟩ := hp
  rw [← hq] at hl
  exact chunksFrom_length_le q q.length 0 p hl

/-- What a sequence of `Write` calls sends when the handshake succeeds and the
connection accepts the frames. -/
theorem Writes_sent (E : Env) (ps : List (List Byte)) (s : ShadowTls) (hh : HandshakeOk E s)
    (hw : WritesSucceed (frameConn E s)) :
    ((ps.map chunks).flatten = [] → Writes E s ps = s) ∧
    ((ps.map chunks).flatten ≠ [] →
      (Writes E s ps).Conn.sent =
        (frameConn E s).sent ++ framesOf (nextTag E s) (ps.map chunks).flatten) := by
  induction ps generalizing s with
  | nil => exact ⟨fun _ => rfl, fun h => absurd rfl h⟩
  | cons p ps ih =>
    by_cases hp : p = []
    · subst hp
      have := ih s hh hw
      simpa [Writes, Write_nil, chunks_nil] using this
    · have hok := Write_ok E s p hh hw
      have hsent := Write_sent E s p hp hok.1
      have hc : chunks p ≠ [] := fun h => hp (chunks_eq_nil p h)
      have hrest := ih (s.Write E p).1 hok.2.1 hok.2.2
      have hfc : frameConn E (s.Write E p).1 = (s.Write E p).1.Conn := by
        simp [frameConn, hsent.2.2.1]
      have hnt : nextTag E (s.Write E p).1 = [] := by
        simp [nextTag, hsent.2.2.1]
      rw [hfc, hnt, framesOf_nil_tag] at hrest
      refine ⟨fun h => ?_, fun _ => ?_⟩
      · simp only [List.map_cons, List.flatten_cons, List.append_eq_nil] at h
        exact absurd h.1 hc
      · simp only [List.map_cons, List.flatten_cons, Writes]
        rw [framesOf_append _ _ _ hc, ← List.append_assoc, ← hsent.2.1]
        by_cases hr : (ps.map chunks).flatten = []
        · rw [hrest.1 hr, hr]
          simp
        · exact hrest.2 hr

/-- C4: a successful `Write` of a payload of `n` bytes sends `ceil(n / 8192)`
frames in order; the payloads of the frames have at most 8192 bytes, all but
the last exactly 8192, and together they are the input.  So 8192 bytes make
one frame and 8193 bytes make two. -/
theorem Write_chunking (E : Env) (s : ShadowTls) (b : List Byte)
    (hok : (s.Write E b).2.2 = none) :
    ∃ payloads : List (List Byte),
      payloads.flatten = b ∧
      payloads.length = (b.length + 8191) / 8192 ∧
      (∀ p ∈ payloads, p.length ≤ 8192) ∧
      (∀ p ∈ payloads.dropLast, p.length = 8192) ∧
      (b = [] → (s.Write E b).1.Conn.sent = s.Conn.sent) ∧
      (b ≠ [] →
        (s.Write E b).1.Conn.sent = (frameConn E s).sent ++ framesOf (nextTag E s) payloads) ∧
      (framesOf (nextTag E s) payloads).length = (b.length + 8191) / 8192 ∧
      (b.length = 8192 → payloads.length = 1) ∧
      (b.length = 8193 → payloads.length = 2) := by
  have hcount : (chunks b).length = (b.length + 8191) / 8192 := by
    unfold chunks
    rw [chunksFrom_count b b.length 0 (by omega)]
    rfl
  refine ⟨chunks b, chunks_flatten b, hcount, chunksFrom_length_le b b.length 0,
    chunksFrom_full b b.length 0 (by omega), ?_, ?_, ?_, ?_, ?_⟩
  · intro hb
    subst hb
    rfl
  · intro hb
    exact (Write_sent E s b hb hok).2.1
  · rw [← hcount]
    cases chunks b <;> simp [framesOf]
  · intro h
    rw [hcount, h]
  · intro h
    rw [hcount, h]

theorem Write_chunking_witness :
    (sampleConn.Write sampleEnv hello).2.2 = none ∧
    ∃ payloads : List (List Byte),
      payloads.flatten = hello ∧
      payloads.length = (hello.length + 8191) / 8192 ∧
      (∀ p ∈ payloads, p.length ≤ 8192) ∧
      (∀ p ∈ payloads.dropLast, p.length = 8192) ∧
      (hello = [] → (sampleConn.Write sampleEnv hello).1.Conn.sent = sampleConn.Conn.sent) ∧
      (hello ≠ [] →
        (sampleConn.Write sampleEnv hello).1.Conn.sent =
          (frameConn sampleEnv sampleConn).sent ++
            framesOf (nextTag sampleEnv sampleConn) payloads) ∧
      (framesOf (nextTag sampleEnv sampleConn) payloads).length = (hello.length + 8191) / 8192 ∧
      (hello.length = 8192 → payloads.length = 1) ∧
      (hello.length = 8193 → payloads.length = 2) :=
  ⟨by decide, Write_chunking sampleEnv sampleConn hello (by decide)⟩

/-- C3: on a fresh connection whose handshake succeeds and whose underlying
writes succeed, the frames sent by a sequence of `Write` calls are: a first
frame whose body is the 8-byte tag followed by the first payload chunk and
whose length field is the length of that chunk plus 8, then for every later
chunk (of the same or of a later `Write`) a frame whose body is the chunk alone
and whose length field is the length of the chunk. -/
theorem tag_only_in_first_frame (E : Env) (c : NetConn) (server : String)
    (password : List Byte) (ps : List (List Byte))
    (hs : (relay E (NewShadowTls c server password)).2 = none)
    (hw : WritesSucceed (relay E (NewShadowTls c server password)).1.Conn)
    (hne : ps.flatten ≠ []) :
    ∃ (p0 : List Byte) (rest : List (List Byte)),
      (p0 :: rest).flatten = ps.flatten ∧ (∀ p ∈ p0 :: rest, p.length ≤ 8192) ∧
      (Writes E (NewShadowTls c server password) ps).Conn.sent =
        (relay E (NewShadowTls c server password)).1.Conn.sent ++
          (([0x17, 0x03, 0x03] ++ bigEndian16 (p0.length + 8) ++
              (handshakeTag E (NewShadowTls c server password) ++ p0)) ::
            rest.map (fun p => [0x17, 0x03, 0x03] ++ bigEndian16 p.length ++ p)) ∧
      (handshakeTag E (NewShadowTls c server password)).length = 8 ∧
      beUint16 (bigEndian16 (p0.length + 8)) = p0.length + 8 ∧
      ∀ p ∈ rest, beUint16 (bigEndian16 p.length) = p.length := by
  have hlen := chunks_all_length_le ps
  have hflat := chunks_all_flatten ps
  have hsent := Writes_sent E ps (NewShadowTls c server password) (fun _ => hs)
    (by simpa [frameConn, NewShadowTls] using hw)
  cases hc : (ps.map chunks).flatten with
  | nil =>
    rw [hc] at hflat
    exact absurd hflat.symm hne
  | cons p0 rest =>
    rw [hc] at hlen hflat hsent
    have h0 := hlen p0 (List.mem_cons_self p0 rest)
    refine ⟨p0, rest, hflat, hlen, ?_, handshakeTag_length E _,
      beUint16_bigEndian16 _ (by omega), ?_⟩
    · rw [hsent.2 (by simp)]
      simp [frameConn, nextTag, NewShadowTls, framesOf, record, handshakeTag_length,
        Nat.add_comm]
    · intro p hp
      exact beUint16_bigEndian16 _ (by have := hlen p (List.mem_cons_of_mem p0 hp); omega)

theorem tag_only_in_first_frame_witness :
    (relay sampleEnv sampleConn).2 = none ∧
    WritesSucceed (relay sampleEnv sampleConn).1.Conn ∧
    [hello, world].flatten ≠ [] ∧
    ∃ (p0 : List Byte) (rest : List (List Byte)),
      (p0 :: rest).flatten = [hello, world].flatten ∧ (∀ p ∈ p0 :: rest, p.length ≤ 8192) ∧
      (Writes sampleEnv sampleConn [hello, world]).Conn.sent =
        (relay sampleEnv sampleConn).1.Conn.sent ++
          (([0x17, 0x03, 0x03] ++ bigEndian16 (p0.length + 8) ++
              (handshakeTag sampleEnv sampleConn ++ p0)) ::
            rest.map (fun p => [0x17, 0x03, 0x03] ++ bigEndian16 p.length ++ p)) ∧
      (handshakeTag sampleEnv sampleConn).length = 8 ∧
      beUint16 (bigEndian16 (p0.length + 8)) = p0.length + 8 ∧
      ∀ p ∈ rest, beUint16 (bigEndian16 p.length) = p.length :=
  ⟨by decide, by decide, by decide,
    tag_only_in_first_frame sampleEnv (connOf [⟨[9, 8, 7], none⟩]) "example.com"
      [104, 117, 110, 116, 101, 114, 50] [hello, world] (by decide) (by decide) (by decide)⟩

/-! ## Reading from a reliable connection -/

theorem readAtLeastLoop_done (len fuel : Nat) (c : NetConn) (acc : List Byte)
    (h : len ≤ acc.length) : readAtLeastLoop len fuel c acc = (c, acc, none) := by
  cases fuel with
  | zero => rfl
  | succ n =>
    unfold readAtLeastLoop
    rw [if_neg (by omega)]

theorem readAtLeastLoop_succ (len fuel : Nat) (c : NetConn) (acc : List Byte) :
    readAtLeastLoop len (fuel + 1) c acc =
      if acc.length < len then
        match c.Read (len - acc.length) with
        | (c1, d, none) => readAtLeastLoop len fuel c1 (acc ++ d)
        | (c1, d, some e) => (c1, acc ++ d, some e)
      else (c, acc, none) := rfl

/-- A read that the head segment more than covers. -/
theorem NetConn.Read_within (c : NetConn) (seg : Segment) (rest : List Segment) (len : Nat)
    (hc : c.incoming = seg :: rest) (h : len < seg.data.length) :
    c.Read len = ({ c with incoming := { seg with data := seg.data.drop len } :: rest },
      seg.data.take len, none) := by
  unfold NetConn.Read
  rw [hc]
  simp only
  rw [if_pos h]

/-- A read that uses the head segment up. -/
theorem NetConn.Read_whole (c : NetConn) (seg : Segment) (rest : List Segment) (len : Nat)
    (hc : c.incoming = seg :: rest) (h : ¬ len < seg.data.length) :
    c.Read len = ({ c with incoming := rest }, seg.data, seg.err) := by
  unfold NetConn.Read
  rw [hc]
  simp only
  rw [if_neg h]

theorem readAtLeastLoop_reliable (len fuel : Nat) (c : NetConn) (acc x y : List Byte)
    (hr : Reliable c) (hp : pending c = x ++ y) (hl : acc.length + x.length = len)
    (hf : c.incoming.length < fuel) :
    ∃ c1, readAtLeastLoop len fuel c acc = (c1, acc ++ x, none) ∧ Reliable c1 ∧
      pending c1 = y := by
  induction fuel generalizing c acc x with
  | zero => omega
  | succ n ih =>
    rw [readAtLeastLoop_succ]
    by_cases hlt : acc.length < len
    · rw [if_pos hlt]
      have hx : len - acc.length = x.length := by omega
      rw [hx]
      cases hc : c.incoming with
      | nil =>
        simp only [pending, hc, List.map_nil, List.flatten_nil] at hp
        have : x = [] := (List.append_eq_nil.mp hp.symm).1
        rw [this] at hx
        simp at hx
        omega
      | cons seg rest =>
        have hseg : seg.err = none := hr seg (by rw [hc]; exact List.mem_cons_self seg rest)
        have hp2 : seg.data ++ (rest.map Segment.data).flatten = x ++ y := by
          simpa [pending, hc] using hp
        by_cases hw : x.length < seg.data.length
        · rw [NetConn.Read_within c seg rest _ hc hw]
          simp only
          have e1 : seg.data.take x.length = x := by
            have := congrArg (List.take x.length) hp2
            rw [List.take_append_of_le_length (by omega)] at this
            simpa using this
          have e2 : seg.data.drop x.length ++ (rest.map Segment.data).flatten = y := by
            have := congrArg (List.drop x.length) hp2
            rw [List.drop_append_of_le_length (by omega)] at this
            simpa using this
          rw [e1, readAtLeastLoop_done _ _ _ _ (by simp; omega)]
          refine ⟨_, rfl, ?_, ?_⟩
          · intro sg hsg
            rcases List.mem_cons.mp hsg with h | h
            · rw [h]
              exact hseg
            · exact hr sg (by rw [hc]; exact List.mem_cons_of_mem seg h)
          · simpa [pending] using e2
        · rw [NetConn.Read_whole c seg rest _ hc hw, hseg]
          simp only
          have hle : seg.data.length ≤ x.length := by omega
          have e1 : x = seg.data ++ x.drop seg.data.length := by
            have := congrArg (List.take seg.data.length) hp2
            rw [List.take_append_of_le_length hle, List.take_left'] at this
            · conv_lhs => rw [← List.take_append_drop seg.data.length x]
              rw [← this]
            · rfl
          have e2 : (rest.map Segment.data).flatten = x.drop seg.data.length ++ y := by
            have := congrArg (List.drop seg.data.length) hp2
            rw [List.drop_append_of_le_length hle, List.drop_left'] at this
            · exact this
            · rfl
          obtain ⟨c1, h1, h2, h3⟩ := ih { c with incoming := rest } (acc ++ seg.data)
            (x.drop seg.data.length) (fun sg hsg => hr sg (by rw [hc]; exact List.mem_cons_of_mem seg hsg))
            (by simpa [pending] using e2) (by simp; omega) (by simp [hc] at hf ⊢; omega)
          refine ⟨c1, ?_, h2, h3⟩
          rw [h1, List.append_assoc, ← e1]
    · rw [if_neg hlt]
      have : x = [] := List.length_eq_zero.mp (by omega)
      subst this
      exact ⟨c, by simp, hr, by simpa using hp⟩

/-- On a reliable connection `io.ReadFull` returns the next bytes in full when
there are enough of them. -/
theorem ReadFull_reliable (c : NetConn) (x y : List Byte) (hr : Reliable c)
    (hp : pending c = x ++ y) :
    ∃ c1, ReadFull c x.length = (c1, x, none) ∧ Reliable c1 ∧ pending c1 = y := by
  obtain ⟨c1, h1, h2, h3⟩ := readAtLeastLoop_reliable x.length (c.incoming.length + 1) c [] x y
    hr hp (by simp) (by omega)
  refine ⟨c1, ?_, h2, h3⟩
  unfold ReadFull
  rw [h1]
  simp

theorem readAtLeastLoop_eof (len fuel : Nat) (c : NetConn) (hr : Reliable c)
    (hp : pending c = []) (hl : 0 < len) (hf : c.incoming.length < fuel) :
    ∃ c1, readAtLeastLoop len fuel c [] = (c1, [], some Error.EOF) ∧ Reliable c1 ∧
      pending c1 = [] := by
  induction fuel generalizing c with
  | zero => omega
  | succ n ih =>
    rw [readAtLeastLoop_succ, if_pos (by simpa using hl)]
    cases hc : c.incoming with
    | nil =>
      have : c.Read (len - ([] : List Byte).length) = (c, [], some Error.EOF) := by
        unfold NetConn.Read
        rw [hc]
      rw [this]
      exact ⟨c, rfl, hr, hp⟩
    | cons seg rest =>
      have hseg : seg.err = none := hr seg (by rw [hc]; exact List.mem_cons_self seg rest)
      have hp2 : seg.data ++ (rest.map Segment.data).flatten = [] := by
        simpa [pending, hc] using hp
      have hd : seg.data = [] := (List.append_eq_nil.mp hp2).1
      rw [NetConn.Read_whole c seg rest _ hc (by simp [hd]), hseg, hd]
      simp only [List.append_nil]
      exact ih { c with incoming := rest }
        (fun sg hsg => hr sg (by rw [hc]; exact List.mem_cons_of_mem seg hsg))
        (by simpa [pending] using (List.append_eq_nil.mp hp2).2) (by simp [hc] at hf ⊢; omega)

/-- On a reliable connection that has delivered everything `io.ReadFull` of a
non-empty buffer returns nothing and `io.EOF`. -/
theorem ReadFull_eof (c : NetConn) (len : Nat) (hr : Reliable c) (hp : pending c = [])
    (hl : 0 < len) :
    ∃ c1, ReadFull c len = (c1, [], some Error.EOF) ∧ Reliable c1 ∧ pending c1 = [] := by
  obtain ⟨c1, h1, h2, h3⟩ := readAtLeastLoop_eof len (c.incoming.length + 1) c hr hp hl
    (by omega)
  refine ⟨c1, ?_, h2, h3⟩
  unfold ReadFull
  rw [h1]
  simp
  omega

/-! ## The steps of the reader on a reliable connection -/

theorem fill_take (b d : List Byte) : (fill b d).take d.length = d := by
  simp [fill]

theorem NetConn.Read_reliable (c : NetConn) (len : Nat) (hr : Reliable c)
    (hne : c.incoming ≠ []) :
    ∃ c1 d, c.Read len = (c1, d, none) ∧ Reliable c1 ∧ d ++ pending c1 = pending c ∧
      d.length ≤ len := by
  cases hc : c.incoming with
  | nil => exact absurd hc hne
  | cons seg rest =>
    have hseg : seg.err = none := hr seg (by rw [hc]; exact List.mem_cons_self seg rest)
    have hrest : ∀ sg ∈ rest, sg.err = none :=
      fun sg hsg => hr sg (by rw [hc]; exact List.mem_cons_of_mem seg hsg)
    by_cases hw : len < seg.data.length
    · refine ⟨_, _, NetConn.Read_within c seg rest len hc hw, ?_, ?_, ?_⟩
      · intro sg hsg
        rcases List.mem_cons.mp hsg with h | h
        · rw [h]
          exact hseg
        · exact hrest sg h
      · simp only [pending, List.map_cons, List.flatten_cons, hc]
        rw [← List.append_assoc, List.take_append_drop]
      · simp
    · refine ⟨{ c with incoming := rest }, seg.data, ?_, hrest, ?_, ?_⟩
      · rw [NetConn.Read_whole c seg rest len hc hw, hseg]
      · simp [pending, hc]
      · omega

/-- A `Read` while a frame is being consumed. -/
theorem Read_body_step (s : ShadowTls) (b cur tail : List Byte) (hf : Feeds s cur tail)
    (hc : cur ≠ []) :
    ∃ s1, s.Read b = (s1, fill b (cur.take b.length), (cur.take b.length).length, none) ∧
      Feeds s1 (cur.drop b.length) tail := by
  obtain ⟨hr, hrem, hp⟩ := hf
  have hpos : 0 < cur.length := List.length_pos.mpr hc
  have hlen : (if s.remain > (b.length : Int) then (b.length : Int) else s.remain).toNat =
      (cur.take b.length).length := by
    rw [hrem, List.length_take]
    split <;> omega
  obtain ⟨c1, h1, h2, h3⟩ := ReadFull_reliable s.Conn (cur.take b.length)
    (cur.drop b.length ++ tail) hr (by rw [hp, ← List.append_assoc, List.take_append_drop])
  unfold ShadowTls.Read
  rw [if_pos (by omega)]
  simp only [hlen, h1]
  refine ⟨_, rfl, h2, ?_, h3⟩
  simp only [hrem, List.length_take, List.length_drop]
  omega

theorem record_header (body : List Byte) (h : body.length < 65536) :
    ∃ hdr : List Byte, hdr.length = TLS_HEADER_LEN ∧ record body = hdr ++ body ∧
      ¬ badMagic hdr ∧ beUint16 (hdr.drop 3) = body.length := by
  refine ⟨[0x17, 0x03, 0x03] ++ bigEndian16 body.length,
    by simp [bigEndian16, TLS_HEADER_LEN], rfl, ?_, ?_⟩
  · simp [badMagic]
  · exact beUint16_bigEndian16 _ h

/-- A `Read` that finds the header of a frame. -/
theorem Read_header_step (s : ShadowTls) (b body tail : List Byte)
    (hf : Feeds s [] (record body ++ tail)) (hL : body.length < 65536) :
    ∃ s1 d more, s.Read b = (s1, fill b d, d.length, none) ∧ body = d ++ more ∧
      Feeds s1 more tail ∧ d.length ≤ b.length ∧ (body.length ≤ b.length → more = []) := by
  obtain ⟨hr, hrem, hp⟩ := hf
  obtain ⟨hdr, hh1, hh2, hh3, hh4⟩ := record_header body hL
  obtain ⟨c1, h1, h2, h3⟩ := ReadFull_reliable s.Conn hdr (body ++ tail) hr
    (by rw [hp, hh2]; simp)
  rw [hh1] at h1
  rw [Read_awaiting s b (by rw [hrem]; simp)]
  unfold ShadowTls.read
  rw [h1]
  simp only
  rw [if_neg hh3, hh4]
  by_cases hgt : body.length > b.length
  · rw [if_pos hgt]
    have hne : c1.incoming ≠ [] := by
      intro h
      have : (pending c1).length = 0 := by simp [pending, h]
      rw [h3, List.length_append] at this
      omega
    obtain ⟨c2, d, e1, e2, e3, e4⟩ := NetConn.Read_reliable c1 b.length h2 hne
    rw [e1]
    simp only
    rw [h3] at e3
    have hd : d = body.take d.length := by
      have := congrArg (List.take d.length) e3
      rw [List.take_left', List.take_append_of_le_length (by omega)] at this
      · exact this
      · rfl
    have hm : pending c2 = body.drop d.length ++ tail := by
      have := congrArg (List.drop d.length) e3
      rw [List.drop_left', List.drop_append_of_le_length (by omega)] at this
      · exact this
      · rfl
    refine ⟨_, d, body.drop d.length, rfl, ?_, ⟨e2, ?_, hm⟩, e4, fun h => by omega⟩
    · conv_lhs => rw [← List.take_append_drop d.length body]
      rw [← hd]
    · simp only [List.length_drop]
      omega
  · rw [if_neg hgt]
    obtain ⟨c2, e1, e2, e3⟩ := ReadFull_reliable c1 body tail h2 h3
    rw [e1]
    refine ⟨_, body, [], rfl, by simp, ⟨e2, ?_, by simpa using e3⟩, by omega, fun _ => rfl⟩
    simpa using hrem

/-- A `Read` when the connection has delivered everything. -/
theorem Read_eof_step (s : ShadowTls) (b : List Byte) (hf : Feeds s [] []) :
    ∃ s1, s.Read b = (s1, b, 0, some (Error.wrap "shadowtls read failed" Error.EOF)) ∧
      Feeds s1 [] [] := by
  obtain ⟨hr, hrem, hp⟩ := hf
  obtain ⟨c1, h1, h2, h3⟩ := ReadFull_eof s.Conn TLS_HEADER_LEN hr (by simpa using hp)
    (by decide)
  rw [Read_awaiting s b (by rw [hrem]; simp)]
  unfold ShadowTls.read
  rw [h1]
  exact ⟨_, rfl, h2, hrem, by simpa using h3⟩

theorem ReadTrace_cons (s : ShadowTls) (b : List Byte) (bufs : List (List Byte)) :
    ReadTrace s (b :: bufs) =
      ((s.Read b).2.1.take (s.Read b).2.2.1, (s.Read b).2.2.2, (s.Read b).1.remain) ::
        ReadTrace (s.Read b).1 bufs := rfl

theorem ReadBytes_cons (s : ShadowTls) (b : List Byte) (bufs : List (List Byte)) :
    ReadBytes s (b :: bufs) =
      (s.Read b).2.1.take (s.Read b).2.2.1 ++ ReadBytes (s.Read b).1 bufs := rfl

/-! ## Sequences of reads -/

theorem Reads_cons (s : ShadowTls) (b : List Byte) (bufs : List (List Byte)) :
    Reads s (b :: bufs) = Reads (s.Read b).1 bufs := rfl

theorem ReadBytes_nil (s : ShadowTls) : ReadBytes s [] = [] := rfl

/-- Calls of `Read` while a frame is being consumed and is not used up before
the last call. -/
theorem Reads_body (tail : List Byte) (pre : List (List Byte)) (s : ShadowTls)
    (cur b : List Byte) (hf : Feeds s cur tail)
    (hlt : (ReadBytes s pre).length < cur.length) :
    ∃ t, cur = ReadBytes s (pre ++ [b]) ++ t ∧ (Reads s (pre ++ [b])).remain = t.length ∧
      ∀ r ∈ ReadTrace s (pre ++ [b]), r.2.1 = none := by
  induction pre generalizing s cur with
  | nil =>
    have hc : cur ≠ [] := by
      intro h
      rw [h] at hlt
      simp at hlt
    obtain ⟨s1, h1, h2⟩ := Read_body_step s b cur tail hf hc
    refine ⟨cur.drop b.length, ?_, ?_, ?_⟩
    · rw [List.nil_append, ReadBytes_cons, h1]
      simp only [fill_take, ReadBytes_nil, List.append_nil, List.take_append_drop]
    · rw [List.nil_append, Reads_cons, h1]
      exact h2.2.1
    · intro r hr
      rw [List.nil_append, ReadTrace_cons, h1] at hr
      simp only [ReadTrace, List.mem_singleton] at hr
      rw [hr]
  | cons p pre ih =>
    have hc : cur ≠ [] := by
      intro h
      rw [h] at hlt
      simp at hlt
    obtain ⟨s1, h1, h2⟩ := Read_body_step s p cur tail hf hc
    rw [ReadBytes_cons, h1] at hlt
    simp only [fill_take] at hlt
    simp only [List.length_append, List.length_take] at hlt
    obtain ⟨t, e1, e2, e3⟩ := ih s1 (cur.drop p.length) h2
      (by simp only [List.length_drop]; omega)
    refine ⟨t, ?_, ?_, ?_⟩
    · rw [List.cons_append, ReadBytes_cons, h1]
      simp only [fill_take]
      rw [List.append_assoc, ← e1, List.take_append_drop]
    · rw [List.cons_append, Reads_cons, h1]
      exact e2
    · intro r hr
      rw [List.cons_append, ReadTrace_cons, h1] at hr
      rcases List.mem_cons.mp hr with h | h
      · rw [h]
      · exact e3 r h

/-- C5 (as stated, refuted): a frame of declared length 4 arrives in two
segments; two `Read` calls with buffers of 2 bytes each (sum 4) return 1 and 2
bytes, and `remain` is 1, not 0, after the second call. -/
theorem short_read_leaves_frame_open :
    Reliable splitFrameConn.Conn ∧ pending splitFrameConn.Conn = record [1, 2, 3, 4] ∧
    ReadTrace splitFrameConn [[0, 0], [0, 0]] = [([1], none, 3), ([2, 3], none, 1)] := by
  decide

/-- Calls of `Read` on a frame that arrives while the reader awaits a header
and of which fewer than all the body bytes were returned before the last call. -/
theorem Reads_frame (s : ShadowTls) (body tail : List Byte) (pre : List (List Byte))
    (b : List Byte) (hr : s.remain = 0) (hrel : Reliable s.Conn)
    (hp : pending s.Conn = record body ++ tail) (hL : body.length < 65536)
    (hbefore : pre = [] ∨ (ReadBytes s pre).length < body.length) :
    ∃ t, body = ReadBytes s (pre ++ [b]) ++ t ∧
      (Reads s (pre ++ [b])).remain = t.length ∧
      (Reads s (pre ++ [b])).remain = (body.length : Int) - (ReadBytes s (pre ++ [b])).length ∧
      ((Reads s (pre ++ [b])).remain = 0 ↔ (ReadBytes s (pre ++ [b])).length = body.length) ∧
      ∀ r ∈ ReadTrace s (pre ++ [b]), r.2.1 = none := by
  have hf : Feeds s [] (record body ++ tail) := ⟨hrel, by simpa using hr, by simpa using hp⟩
  have key : ∃ t, body = ReadBytes s (pre ++ [b]) ++ t ∧
      (Reads s (pre ++ [b])).remain = t.length ∧
      ∀ r ∈ ReadTrace s (pre ++ [b]), r.2.1 = none := by
    cases pre with
    | nil =>
      obtain ⟨s1, d, more, h1, h2, h3, _, _⟩ := Read_header_step s b body tail hf hL
      refine ⟨more, ?_, ?_, ?_⟩
      · rw [List.nil_append, ReadBytes_cons, h1]
        simpa [fill_take, ReadBytes_nil] using h2
      · rw [List.nil_append, Reads_cons, h1]
        exact h3.2.1
      · intro r hr
        rw [List.nil_append, ReadTrace_cons, h1] at hr
        simp only [ReadTrace, List.mem_singleton] at hr
        rw [hr]
    | cons p pre =>
      obtain ⟨s1, d, more, h1, h2, h3, _, _⟩ := Read_header_step s p body tail hf hL
      have hlt : (ReadBytes s (p :: pre)).length < body.length := by
        rcases hbefore with h | h
        · exact absurd h (by simp)
        · exact h
      rw [ReadBytes_cons, h1] at hlt
      simp only [fill_take] at hlt
      simp only [List.length_append] at hlt
      have hbl : body.length = d.length + more.length := by rw [h2, List.length_append]
      obtain ⟨t, e1, e2, e3⟩ := Reads_body tail pre s1 more b h3 (by omega)
      refine ⟨t, ?_, ?_, ?_⟩
      · rw [List.cons_append, ReadBytes_cons, h1]
        simp only [fill_take]
        rw [List.append_assoc, ← e1]
        exact h2
      · rw [List.cons_append, Reads_cons, h1]
        exact e2
      · intro r hr
        rw [List.cons_append, ReadTrace_cons, h1] at hr
        rcases List.mem_cons.mp hr with h | h
        · rw [h]
        · exact e3 r h
  obtain ⟨t, e1, e2, e3⟩ := key
  have hlen : body.length = (ReadBytes s (pre ++ [b])).length + t.length := by
    conv_lhs => rw [e1]
    rw [List.length_append]
  refine ⟨t, e1, e2, ?_, ?_, e3⟩
  · rw [e2]
    omega
  · rw [e2]
    omega

/-! ## The round trip -/

theorem wire_cons (body : List Byte) (bodies : List (List Byte)) :
    wire (body :: bodies) = record body ++ wire bodies := by
  simp [wire]

theorem record_length (body : List Byte) : (record body).length = 5 + body.length := by
  simp only [record, bigEndian16, List.length_append, List.length_cons, List.length_nil]

theorem wire_eq_nil (bodies : List (List Byte)) (h : wire bodies = []) : bodies = [] := by
  cases bodies with
  | nil => rfl
  | cons body rest =>
    have := congrArg List.length h
    rw [wire_cons, List.length_append, record_length] at this
    simp at this

/-- What a sequence of `Read` calls with non-empty buffers returns on a
reliable connection that delivers the rest of a frame and then whole frames:
always an initial part of the bodies, and all of them once there have been as
many calls as bytes on the wire. -/
theorem ReadBytes_feeds (bufs : List (List Byte)) (s : ShadowTls) (cur : List Byte)
    (bodies : List (List Byte)) (hpos : ∀ b ∈ bufs, b ≠ [])
    (hf : Feeds s cur (wire bodies)) (hL : ∀ body ∈ bodies, body.length < 65536) :
    (∃ t, cur ++ bodies.flatten = ReadBytes s bufs ++ t) ∧
    ((cur ++ wire bodies).length ≤ bufs.length → ReadBytes s bufs = cur ++ bodies.flatten) := by
  induction bufs generalizing s cur bodies with
  | nil =>
    refine ⟨⟨cur ++ bodies.flatten, rfl⟩, fun h => ?_⟩
    have h0 : cur ++ wire bodies = [] := List.length_eq_zero.mp (by simpa using h)
    have h1 := List.append_eq_nil.mp h0
    rw [h1.1, wire_eq_nil bodies h1.2]
    rfl
  | cons b bufs ih =>
    have hb : 0 < b.length := List.length_pos.mpr (hpos b (List.mem_cons_self b bufs))
    have hpos2 : ∀ x ∈ bufs, x ≠ [] := fun x hx => hpos x (List.mem_cons_of_mem b hx)
    by_cases hc : cur = []
    · subst hc
      cases bodies with
      | nil =>
        obtain ⟨s1, h1, h2⟩ := Read_eof_step s b (by simpa [wire] using hf)
        have i1 := ih s1 [] [] hpos2 (by simpa [wire] using h2) hL
        obtain ⟨t, ht⟩ := i1.1
        have hnil : ReadBytes s1 bufs = [] := by
          have := List.append_eq_nil.mp ht.symm
          exact this.1
        have : ReadBytes s (b :: bufs) = [] := by
          rw [ReadBytes_cons, h1]
          simpa using hnil
        rw [this]
        exact ⟨⟨[], rfl⟩, fun _ => rfl⟩
      | cons body rest =>
        have hLb := hL body (List.mem_cons_self body rest)
        obtain ⟨s1, d, more, h1, h2, h3, _, _⟩ := Read_header_step s b body (wire rest)
          (by rw [← wire_cons]; exact hf) hLb
        have i1 := ih s1 more rest hpos2 h3 (fun x hx => hL x (List.mem_cons_of_mem body hx))
        have hrb : ReadBytes s (b :: bufs) = d ++ ReadBytes s1 bufs := by
          rw [ReadBytes_cons, h1]
          simp only [fill_take]
        rw [hrb]
        refine ⟨?_, fun h => ?_⟩
        · obtain ⟨t, ht⟩ := i1.1
          refine ⟨t, ?_⟩
          rw [List.nil_append, List.flatten_cons, h2, List.append_assoc, List.append_assoc, ht]
        · rw [List.nil_append, wire_cons, List.length_append, record_length,
            List.length_cons] at h
          have hbl : body.length = d.length + more.length := by rw [h2, List.length_append]
          rw [i1.2 (by rw [List.length_append]; omega), List.nil_append, List.flatten_cons,
            h2, List.append_assoc]
    · obtain ⟨s1, h1, h2⟩ := Read_body_step s b cur (wire bodies) hf hc
      have i1 := ih s1 (cur.drop b.length) bodies hpos2 h2 hL
      have hrb : ReadBytes s (b :: bufs) = cur.take b.length ++ ReadBytes s1 bufs := by
        rw [ReadBytes_cons, h1]
        simp only [fill_take]
      have hcl : 0 < cur.length := List.length_pos.mpr hc
      rw [hrb]
      refine ⟨?_, fun h => ?_⟩
      · obtain ⟨t, ht⟩ := i1.1
        refine ⟨t, ?_⟩
        rw [List.append_assoc, ← ht, ← List.append_assoc, List.take_append_drop]
      · rw [List.length_append, List.length_cons] at h
        rw [i1.2 (by rw [List.length_append, List.length_drop]; omega), ← List.append_assoc,
          List.take_append_drop]

theorem Writes_all_nil (E : Env) (ps : List (List Byte)) (s : ShadowTls)
    (h : ∀ p ∈ ps, p = []) : Writes E s ps = s := by
  induction ps with
  | nil => rfl
  | cons p ps ih =>
    rw [h p (List.mem_cons_self p ps)]
    exact ih (fun q hq => h q (List.mem_cons_of_mem p hq))

theorem framesOf_flatten (tag : List Byte) (p : List Byte) (ps : List (List Byte)) :
    (framesOf tag (p :: ps)).flatten = wire ((tag ++ p) :: ps) := by
  simp [framesOf, wire]

/-- C1 (as stated, refuted): the frames that `Write("hello")` sent on the sample
connection are read back through buffers of four bytes; what the calls return
is the tag followed by "hello", 13 bytes, not "hello". -/
theorem round_trip_returns_tag :
    Reliable echoConn.Conn ∧
    ReadBytes echoConn (List.replicate 5 [0, 0, 0, 0]) =
      [104, 117, 110, 116, 101, 114, 50, 9] ++ hello ∧
    ReadBytes echoConn (List.replicate 5 [0, 0, 0, 0]) ≠ hello := by
  decide

/-- C1 (amended): payloads are written with a sequence of `Write` calls on a
fresh connection whose handshake succeeds and whose underlying writes succeed,
and the bytes of the frames sent are delivered to a fresh reader by a reliable
connection, in any segmentation, and read with any sequence of non-empty
buffers.  If the payloads are not all empty, what the `Read` calls return is
always an initial part of the 8-byte tag followed by the payloads, and is
exactly the tag followed by the payloads once there have been as many calls as
bytes on the wire.  If they are all empty, nothing is sent and nothing is
returned. -/
theorem round_trip_with_tag (E : Env) (c : NetConn) (server : String) (password : List Byte)
    (ps : List (List Byte)) (rc : NetConn) (rserver : String) (rpassword : List Byte)
    (bufs : List (List Byte))
    (hs : (relay E (NewShadowTls c server password)).2 = none)
    (hw : WritesSucceed (relay E (NewShadowTls c server password)).1.Conn)
    (hrel : Reliable rc) (hpos : ∀ b ∈ bufs, b ≠ []) :
    (ps.flatten ≠ [] →
      pending rc = ((Writes E (NewShadowTls c server password) ps).Conn.sent.drop
        (relay E (NewShadowTls c server password)).1.Conn.sent.length).flatten →
      (∃ t, handshakeTag E (NewShadowTls c server password) ++ ps.flatten =
        ReadBytes (NewShadowTls rc rserver rpassword) bufs ++ t) ∧
      ((pending rc).length ≤ bufs.length →
        ReadBytes (NewShadowTls rc rserver rpassword) bufs =
          handshakeTag E (NewShadowTls c server password) ++ ps.flatten)) ∧
    (ps.flatten = [] →
      (Writes E (NewShadowTls c server password) ps).Conn.sent = c.sent ∧
      (pending rc = [] → ReadBytes (NewShadowTls rc rserver rpassword) bufs = [])) := by
  have hlen := chunks_all_length_le ps
  have hflat := chunks_all_flatten ps
  have hsent := Writes_sent E ps (NewShadowTls c server password) (fun _ => hs)
    (by simpa [frameConn, NewShadowTls] using hw)
  refine ⟨fun hne hfed => ?_, fun he => ?_⟩
  · cases hc : (ps.map chunks).flatten with
    | nil =>
      rw [hc] at hflat
      exact absurd hflat.symm hne
    | cons p0 rest =>
      rw [hc] at hlen hflat hsent
      have hwire : pending rc =
          wire ((handshakeTag E (NewShadowTls c server password) ++ p0) :: rest) := by
        rw [hfed, hsent.2 (by simp)]
        simp only [frameConn, nextTag, NewShadowTls, if_true, List.drop_left',
          framesOf_flatten]
      have hL : ∀ body ∈ (handshakeTag E (NewShadowTls c server password) ++ p0) :: rest,
          body.length < 65536 := by
        intro body hb
        rcases List.mem_cons.mp hb with h | h
        · have := hlen p0 (List.mem_cons_self p0 rest)
          rw [h, List.length_append, handshakeTag_length]
          omega
        · have := hlen body (List.mem_cons_of_mem p0 h)
          omega
      have hf : Feeds (NewShadowTls rc rserver rpassword) []
          (wire ((handshakeTag E (NewShadowTls c server password) ++ p0) :: rest)) :=
        ⟨hrel, rfl, by simpa [NewShadowTls] using hwire⟩
      have key := ReadBytes_feeds bufs _ [] _ hpos hf hL
      have hall : ([] : List Byte) ++
          ((handshakeTag E (NewShadowTls c server password) ++ p0) :: rest).flatten =
          handshakeTag E (NewShadowTls c server password) ++ ps.flatten := by
        rw [← hflat]
        simp
      rw [hall] at key
      refine ⟨key.1, fun h => key.2 ?_⟩
      rw [List.nil_append, ← hwire]
      exact h
  · have hall : ∀ p ∈ ps, p = [] := by
      intro p hp
      have h1 : p.length ≤ ps.flatten.length := by
        obtain ⟨l1, l2, hl⟩ := List.append_of_mem hp
        rw [hl]
        simp
        omega
      rw [he] at h1
      exact List.length_eq_zero.mp (by simpa using h1)
    refine ⟨by rw [Writes_all_nil E ps _ hall]; rfl, fun hp => ?_⟩
    have hf : Feeds (NewShadowTls rc rserver rpassword) [] (wire []) :=
      ⟨hrel, rfl, by simpa [NewShadowTls, wire] using hp⟩
    obtain ⟨t, ht⟩ := (ReadBytes_feeds bufs _ [] [] hpos hf (by simp)).1
    exact (List.append_eq_nil.mp ht.symm).1


theorem round_trip_with_tag_witness :
    (relay sampleEnv sampleConn).2 = none ∧
    WritesSucceed (relay sampleEnv sampleConn).1.Conn ∧
    Reliable echoConn.Conn ∧
    (∀ b ∈ List.replicate 18 ([0, 0, 0, 0] : List Byte), b ≠ []) ∧
    ReadBytes (NewShadowTls echoConn.Conn "example.com" []) (List.replicate 18 [0, 0, 0, 0]) =
      handshakeTag sampleEnv sampleConn ++ [hello].flatten :=
  ⟨by decide, by decide, by decide, by decide,
    ((round_trip_with_tag sampleEnv (connOf [⟨[9, 8, 7], none⟩]) "example.com"
      [104, 117, 110, 116, 101, 114, 50] [hello] echoConn.Conn "example.com" []
      (List.replicate 18 [0, 0, 0, 0]) (by decide) (by decide) (by decide) (by decide)).1
      (by decide) (by decide)).2 (by decide)⟩

/-! ## The turns allowed to the loops are enough -/

theorem readAtLeastLoop_fuel_succ (len fuel : Nat) (c : NetConn) (acc : List Byte)
    (h : c.incoming.length < fuel) :
    readAtLeastLoop len (fuel + 1) c acc = readAtLeastLoop len fuel c acc := by
  induction fuel generalizing c acc with
  | zero => omega
  | succ n ih =>
    rw [readAtLeastLoop_succ len (n + 1), readAtLeastLoop_succ len n]
    by_cases hlt : acc.length < len
    · rw [if_pos hlt, if_pos hlt]
      cases hc : c.incoming with
      | nil =>
        have : c.Read (len - acc.length) = (c, [], some Error.EOF) := by
          unfold NetConn.Read
          rw [hc]
        rw [this]
      | cons seg rest =>
        by_cases hw : len - acc.length < seg.data.length
        · rw [NetConn.Read_within c seg rest _ hc hw]
          simp only
          rw [readAtLeastLoop_done _ _ _ _ (by simp; omega),
            readAtLeastLoop_done _ _ _ _ (by simp; omega)]
        · rw [NetConn.Read_whole c seg rest _ hc hw]
          cases seg.err with
          | some e => rfl
          | none =>
            simp only
            exact ih _ _ (by simp [hc] at h ⊢; omega)
    · rw [if_neg hlt, if_neg hlt]

/-- More turns than `incoming.length + 1` do not change what the loop of
`io.ReadFull` returns. -/
theorem readAtLeastLoop_fuel (len extra : Nat) (c : NetConn) (acc : List Byte) :
    readAtLeastLoop len (c.incoming.length + 1 + extra) c acc =
      readAtLeastLoop len (c.incoming.length + 1) c acc := by
  induction extra with
  | zero => rfl
  | succ k ih =>
    rw [← Nat.add_assoc, readAtLeastLoop_fuel_succ len _ c acc (by omega), ih]

theorem WriteLoop_fuel_succ (E : Env) (b : List Byte) (fuel i : Nat) (s : ShadowTls)
    (h : b.length ≤ fuel + i) :
    WriteLoop E b (fuel + 1) i s = WriteLoop E b fuel i s := by
  induction fuel generalizing i s with
  | zero =>
    rw [WriteLoop_succ, if_neg (by omega)]
    rfl
  | succ n ih =>
    rw [WriteLoop_succ E b (n + 1), WriteLoop_succ E b n]
    by_cases hi : i < b.length
    · rw [if_pos hi, if_pos hi]
      rcases s.write E (slice b i (if i + chunkSize > b.length then b.length
        else i + chunkSize)) with ⟨s1, m, e⟩
      cases e with
      | some err => rfl
      | none =>
        simp only
        exact ih _ _ (by unfold chunkSize; omega)
    · rw [if_neg hi, if_neg hi]

/-- More turns than `len(b)` do not change what the loop of `Write` returns. -/
theorem WriteLoop_fuel (E : Env) (b : List Byte) (extra : Nat) (s : ShadowTls) :
    WriteLoop E b (b.length + extra) 0 s = s.Write E b := by
  unfold ShadowTls.Write
  induction extra with
  | zero => rfl
  | succ k ih =>
    rw [← Nat.add_assoc, WriteLoop_fuel_succ E b _ 0 s (by omega), ih]

theorem NetConn.Read_length_le (c : NetConn) (len : Nat) :
    (c.Read len).2.1.length ≤ len ∧ (c.Read len).1.incoming.length ≤ c.incoming.length ∧
      ((c.Read len).2.2 = none →
        (c.Read len).2.1.length = len ∨
          (c.Read len).1.incoming.length < c.incoming.length) := by
  cases hc : c.incoming with
  | nil =>
    have : c.Read len = (c, [], some Error.EOF) := by
      unfold NetConn.Read
      rw [hc]
    rw [this]
    simp [hc]
  | cons seg rest =>
    by_cases hw : len < seg.data.length
    · rw [NetConn.Read_within c seg rest len hc hw]
      simp
      omega
    · rw [NetConn.Read_whole c seg rest len hc hw]
      simp
      omega

theorem readAtLeastLoop_length (len fuel : Nat) (c : NetConn) (acc : List Byte)
    (hf : c.incoming.length < fuel) (ha : acc.length ≤ len) :
    (readAtLeastLoop len fuel c acc).2.1.length ≤ len ∧
      ((readAtLeastLoop len fuel c acc).2.2 = none →
        (readAtLeastLoop len fuel c acc).2.1.length = len) := by
  induction fuel generalizing c acc with
  | zero => omega
  | succ n ih =>
    rw [readAtLeastLoop_succ]
    by_cases hlt : acc.length < len
    · rw [if_pos hlt]
      have hR := NetConn.Read_length_le c (len - acc.length)
      rcases hr : c.Read (len - acc.length) with ⟨c1, d, e⟩
      rw [hr] at hR
      simp only at hR
      cases e with
      | some err =>
        simp only [List.length_append]
        exact ⟨by omega, fun h => by cases h⟩
      | none =>
        simp only
        rcases hR.2.2 rfl with h | h
        · rw [readAtLeastLoop_done _ _ _ _ (by rw [List.length_append]; omega)]
          simp only [List.length_append]
          exact ⟨by omega, fun _ => by omega⟩
        · exact ih c1 (acc ++ d) (by omega) (by rw [List.length_append]; omega)
    · rw [if_neg hlt]
      simp only
      exact ⟨ha, fun _ => by omega⟩

/-- When `io.ReadFull` returns no error it has filled the buffer. -/
theorem ReadFull_none_length (c : NetConn) (len : Nat) (h : (ReadFull c len).2.2 = none) :
    (ReadFull c len).2.1.length = len := by
  have hl := readAtLeastLoop_length len (c.incoming.length + 1) c [] (by omega) (by simp)
  unfold ReadFull at h ⊢
  rcases hr : readAtLeastLoop len (c.incoming.length + 1) c [] with ⟨c1, d, e⟩
  rw [hr] at hl h
  simp only at hl h ⊢
  by_cases h1 : len ≤ d.length
  · rw [if_pos h1]
    simp only
    omega
  · rw [if_neg h1] at h ⊢
    by_cases h2 : 0 < d.length ∧ e = some Error.EOF
    · rw [if_pos h2] at h
      cases h
    · rw [if_neg h2] at h ⊢
      simp only at h ⊢
      exact hl.2 h

/-- C6: when the reader awaits a header and the five header bytes it reads do
not start with 0x17 0x03 0x03, `Read` returns the count 0 and an error, leaves
the caller's buffer as it was, leaves the connection as it was right after the
five header bytes were read (nothing behind the header is consumed) and leaves
`remain` at 0. -/
theorem Read_rejects_corrupted_header (s : ShadowTls) (b hdr : List Byte) (c1 : NetConn)
    (hr : s.remain = 0) (hh : ReadFull s.Conn TLS_HEADER_LEN = (c1, hdr, none))
    (hm : hdr.take 3 ≠ [0x17, 0x03, 0x03]) :
    (s.Read b).2.2.1 = 0 ∧ (s.Read b).2.2.2 = some (Error.invalidHeader hdr) ∧
    (s.Read b).2.1 = b ∧ (s.Read b).1.Conn = c1 ∧ (s.Read b).1.remain = 0 := by
  have hl : hdr.length = 5 := by
    have := ReadFull_none_length s.Conn TLS_HEADER_LEN (by rw [hh])
    rw [hh] at this
    exact this
  have hbad : badMagic (ReadFull s.Conn TLS_HEADER_LEN).2.1 := by
    rw [hh]
    match hdr, hl with
    | [a0, a1, a2, a3, a4], _ =>
      simp only [List.take_succ_cons, List.take_zero, ne_eq, List.cons.injEq, and_true,
        not_and] at hm
      simp only [badMagic, List.getD_cons_zero, List.getD_cons_succ]
      by_cases h0 : a0 = 0x17
      · by_cases h1 : a1 = 0x03
        · exact Or.inr (Or.inr (hm h0 h1))
        · exact Or.inr (Or.inl h1)
      · exact Or.inl h0
  rw [Read_awaiting s b (by omega), read_header_invalid s b (by rw [hh]) hbad, hh]
  exact ⟨rfl, rfl, rfl, rfl, hr⟩

theorem Read_rejects_corrupted_header_witness :
    corruptConn.remain = 0 ∧
    ReadFull corruptConn.Conn TLS_HEADER_LEN =
      (connOf [⟨[9, 9], none⟩], [0x16, 0x03, 0x03, 0, 2], none) ∧
    (corruptConn.Read [0, 0, 0, 0]).2.2.1 = 0 ∧
    (corruptConn.Read [0, 0, 0, 0]).2.2.2 = some (Error.invalidHeader [0x16, 0x03, 0x03, 0, 2]) ∧
    (corruptConn.Read [0, 0, 0, 0]).2.1 = [0, 0, 0, 0] ∧
    (corruptConn.Read [0, 0, 0, 0]).1.Conn = connOf [⟨[9, 9], none⟩] ∧
    (corruptConn.Read [0, 0, 0, 0]).1.remain = 0 :=
  ⟨rfl, by decide,
    Read_rejects_corrupted_header corruptConn [0, 0, 0, 0] [0x16, 0x03, 0x03, 0, 2]
      (connOf [⟨[9, 9], none⟩]) rfl (by decide) (by decide)⟩

theorem take_append_take_drop (cur : List Byte) (m n : Nat) :
    cur.take m ++ (cur.drop m).take n = cur.take (m + n) := by
  rw [List.take_add]

/-- Calls of `Read` with non-empty buffers that together hold no more than what
is left of the frame being consumed: each call fills its buffer. -/
theorem Reads_body_full (tail : List Byte) (pre : List (List Byte)) (s : ShadowTls)
    (cur : List Byte) (hf : Feeds s cur tail) (hpos : ∀ x ∈ pre, x ≠ [])
    (hsum : (pre.map List.length).sum ≤ cur.length) :
    ReadBytes s pre = cur.take (pre.map List.length).sum ∧
      (Reads s pre).remain = (cur.length : Int) - (pre.map List.length).sum ∧
      ∀ r ∈ ReadTrace s pre, r.2.1 = none := by
  induction pre generalizing s cur with
  | nil =>
    refine ⟨by simp [ReadBytes_nil], ?_, fun r hr => by simp [ReadTrace] at hr⟩
    simp only [Reads, List.map_nil, List.sum_nil]
    rw [hf.2.1]
    simp
  | cons p pre ih =>
    have hp : 0 < p.length := List.length_pos.mpr (hpos p (List.mem_cons_self p pre))
    simp only [List.map_cons, List.sum_cons] at hsum ⊢
    have hc : cur ≠ [] := by
      intro h
      rw [h, List.length_nil] at hsum
      omega
    obtain ⟨s1, h1, h2⟩ := Read_body_step s p cur tail hf hc
    obtain ⟨e1, e2, e3⟩ := ih s1 (cur.drop p.length) h2
      (fun x hx => hpos x (List.mem_cons_of_mem p hx))
      (by rw [List.length_drop]; omega)
    refine ⟨?_, ?_, ?_⟩
    · rw [ReadBytes_cons, h1]
      simp only [fill_take]
      rw [e1, take_append_take_drop]
    · rw [Reads_cons, h1]
      simp only
      rw [e2, List.length_drop]
      omega
    · intro r hr
      rw [ReadTrace_cons, h1] at hr
      rcases List.mem_cons.mp hr with h | h
      · rw [h]
      · exact e3 r h


/-- C5 (amended): a frame with a body of `L` bytes arrives on a reliable
connection while the reader awaits a header.

For every sequence of `Read` calls such that fewer than `L` body bytes were
returned before the last of them: no call returns an error, the bytes returned
by all the calls are the first bytes of the body, and `remain` after the last
call is `L` minus the number of bytes returned; so `remain` is 0 exactly when
`L` bytes have been returned.

For every sequence of non-empty buffers whose sizes sum to `L`, if the first
call is not cut short (it returns as many bytes as its buffer holds): after
each call the bytes returned so far are the first bytes of the body, as many as
the buffers used so far hold, and `remain` is `L` minus that number, which is
positive before the last call and 0 after it, when the whole body has been
returned. -/
theorem partial_consumption (s : ShadowTls) (body tail : List Byte) (hr : s.remain = 0)
    (hrel : Reliable s.Conn) (hp : pending s.Conn = record body ++ tail)
    (hL : body.length < 65536) :
    (∀ (pre : List (List Byte)) (b : List Byte),
      (pre = [] ∨ (ReadBytes s pre).length < body.length) →
      ∃ t, body = ReadBytes s (pre ++ [b]) ++ t ∧
        (Reads s (pre ++ [b])).remain = t.length ∧
        (Reads s (pre ++ [b])).remain =
          (body.length : Int) - (ReadBytes s (pre ++ [b])).length ∧
        ((Reads s (pre ++ [b])).remain = 0 ↔
          (ReadBytes s (pre ++ [b])).length = body.length) ∧
        ∀ r ∈ ReadTrace s (pre ++ [b]), r.2.1 = none) ∧
    (∀ (b1 : List Byte) (pre post : List (List Byte)),
      (∀ x ∈ b1 :: (pre ++ post), x ≠ []) →
      ((b1 :: (pre ++ post)).map List.length).sum = body.length →
      (s.Read b1).2.2.1 = b1.length →
      ReadBytes s (b1 :: pre) = body.take ((b1 :: pre).map List.length).sum ∧
      (Reads s (b1 :: pre)).remain =
        (body.length : Int) - ((b1 :: pre).map List.length).sum ∧
      (∀ r ∈ ReadTrace s (b1 :: pre), r.2.1 = none) ∧
      (post ≠ [] → 0 < (Reads s (b1 :: pre)).remain) ∧
      (post = [] → (Reads s (b1 :: pre)).remain = 0 ∧ ReadBytes s (b1 :: pre) = body)) := by
  refine ⟨fun pre b hbefore => Reads_frame s body tail pre b hr hrel hp hL hbefore, ?_⟩
  intro b1 pre post hpos hsum hfull
  have hf : Feeds s [] (record body ++ tail) := ⟨hrel, by simpa using hr, by simpa using hp⟩
  obtain ⟨s1, d, more, h1, h2, h3, _, _⟩ := Read_header_step s b1 body tail hf hL
  rw [h1] at hfull
  simp only at hfull
  have hbl : body.length = d.length + more.length := by rw [h2, List.length_append]
  simp only [List.map_cons, List.sum_cons, List.map_append, List.sum_append] at hsum ⊢
  have hpre : ∀ x ∈ pre, x ≠ [] :=
    fun x hx => hpos x (List.mem_cons_of_mem b1 (List.mem_append_left post hx))
  obtain ⟨e1, e2, e3⟩ := Reads_body_full tail pre s1 more h3 hpre (by omega)
  have hrem : (Reads s (b1 :: pre)).remain =
      (body.length : Int) - ((b1.length + (pre.map List.length).sum : Nat) : Int) := by
    rw [Reads_cons, h1]
    simp only
    rw [e2]
    omega
  have hbytes : ReadBytes s (b1 :: pre) = body.take (b1.length + (pre.map List.length).sum) := by
    rw [ReadBytes_cons, h1]
    simp only [fill_take]
    rw [e1, h2, ← hfull, List.take_append]
  refine ⟨hbytes, hrem, ?_, ?_, ?_⟩
  · intro r hr2
    rw [ReadTrace_cons, h1] at hr2
    rcases List.mem_cons.mp hr2 with h | h
    · rw [h]
    · exact e3 r h
  · intro hne
    cases post with
    | nil => exact absurd rfl hne
    | cons q qs =>
      have hq : 0 < q.length := List.length_pos.mpr
        (hpos q (List.mem_cons_of_mem b1 (List.mem_append_right pre (List.mem_cons_self q qs))))
      simp only [List.map_cons, List.sum_cons] at hsum
      rw [hrem]
      omega
  · intro he
    rw [he] at hsum
    simp only [List.map_nil, List.sum_nil, Nat.add_zero] at hsum
    refine ⟨by rw [hrem]; omega, ?_⟩
    rw [hbytes, hsum, List.take_length]

theorem partial_consumption_witness :
    wholeFrameConn.remain = 0 ∧ Reliable wholeFrameConn.Conn ∧
    pending wholeFrameConn.Conn = record [1, 2, 3, 4] ++ [] ∧
    ([1, 2, 3, 4] : List Byte).length < 65536 ∧
    (∃ t, [1, 2, 3, 4] = ReadBytes wholeFrameConn ([] ++ [[0, 0, 0]]) ++ t ∧
      (Reads wholeFrameConn ([] ++ [[0, 0, 0]])).remain = t.length) ∧
    ReadBytes wholeFrameConn [[0], [0, 0]] = ([1, 2, 3, 4] : List Byte).take 3 ∧
    (Reads wholeFrameConn [[0], [0, 0]]).remain = 1 ∧
    (Reads wholeFrameConn [[0], [0, 0], [0]]).remain = 0 ∧
    ReadBytes wholeFrameConn [[0], [0, 0], [0]] = [1, 2, 3, 4] := by
  have h := partial_consumption wholeFrameConn [1, 2, 3, 4] [] rfl (by decide) (by decide)
    (by decide)
  have hA := h.1 [] [0, 0, 0] (Or.inl rfl)
  have hB := h.2 [0] [[0, 0]] [[0]] (by decide) (by decide) (by decide)
  have hC := h.2 [0] [[0, 0], [0]] [] (by decide) (by decide) (by decide)
  obtain ⟨t, ht1, ht2, _⟩ := hA
  exact ⟨rfl, by decide, by decide, by decide, ⟨t, ht1, ht2⟩, hB.1, hB.2.1,
    (hC.2.2.2.2 rfl).1, (hC.2.2.2.2 rfl).2⟩

/-! ## Failure of the handshake, and the count that `Write` returns -/

/-- C11: when a `Write` of a non-empty payload on a connection that still has
its handshake to do (a fresh one in particular) runs the handshake and the
handshake fails, the `Write` returns the count 0 and an error, and the
underlying connection is left exactly as the handshake left it: no frame, and
no byte of a frame, is handed to it. -/
theorem handshake_failure_aborts_write (E : Env) (s : ShadowTls) (b : List Byte) (err : Error)
    (hf : s.firstRequest = true) (hb : b ≠ []) (hs : (relay E s).2 = some err) :
    (s.Write E b).2.1 = 0 ∧
    (s.Write E b).2.2 = some (Error.writeFailed (Error.wrap "tls connect failed with" err) 0
      (if 0 + chunkSize > b.length then b.length else 0 + chunkSize) 0) ∧
    (s.Write E b).1.Conn = (relay E s).1.Conn ∧
    (s.Write E b).1.Conn.sent = (relay E s).1.Conn.sent := by
  rw [Write_unfold E s b hb, write_first_failed E s _ hf err hs]
  exact ⟨rfl, rfl, rfl, rfl⟩

theorem handshake_failure_aborts_write_witness :
    sampleConn.firstRequest = true ∧ hello ≠ [] ∧
    (relay failingEnv sampleConn).2 = some (Error.io 1) ∧
    (sampleConn.Write failingEnv hello).2.1 = 0 ∧
    (sampleConn.Write failingEnv hello).1.Conn.sent = [] :=
  ⟨rfl, by decide, by decide,
    (handshake_failure_aborts_write failingEnv sampleConn hello (Error.io 1) rfl (by decide)
      (by decide)).1,
    by
      rw [(handshake_failure_aborts_write failingEnv sampleConn hello (Error.io 1) rfl
        (by decide) (by decide)).2.2.2]
      decide⟩

theorem record_flatten_length (ps : List (List Byte)) :
    ((ps.map record).flatten).length = 5 * ps.length + ps.flatten.length := by
  induction ps with
  | nil => rfl
  | cons p ps ih =>
    simp only [List.map_cons, List.flatten_cons, List.length_append, List.length_cons, ih,
      record_length]
    omega

theorem framesOf_flatten_length (tag : List Byte) (ps : List (List Byte)) (h : ps ≠ []) :
    ((framesOf tag ps).flatten).length = 5 * ps.length + tag.length + ps.flatten.length := by
  cases ps with
  | nil => exact absurd rfl h
  | cons p ps =>
    simp only [framesOf, List.flatten_cons, List.length_append, List.length_cons,
      record_flatten_length, record_length]
    omega

/-- C12: when the handshake, if one is due, succeeds and the underlying
connection reports no error for any frame, `Write` of a payload of `n` bytes
returns `(n, nil)`; the bytes handed to the connection for a non-empty payload
are `n` plus 5 for every frame plus the length of the tag, none of which is
counted. -/
theorem Write_returns_payload_length (E : Env) (s : ShadowTls) (b : List Byte)
    (hh : HandshakeOk E s) (hw : WritesSucceed (frameConn E s)) :
    (s.Write E b).2 = (b.length, none) ∧
    (b ≠ [] →
      (((s.Write E b).1.Conn.sent.drop (frameConn E s).sent.length).flatten).length =
        b.length + 5 * ((b.length + 8191) / 8192) + (nextTag E s).length) := by
  have hok := (Write_ok E s b hh hw).1
  refine ⟨?_, fun hb => ?_⟩
  · by_cases hb : b = []
    · subst hb
      rfl
    · have h2 := (Write_sent E s b hb hok).2.2.2
      exact Prod.ext h2 hok
  · have hc : chunks b ≠ [] := fun h => hb (chunks_eq_nil b h)
    have hcount : (chunks b).length = (b.length + 8191) / 8192 := by
      unfold chunks
      rw [chunksFrom_count b b.length 0 (by omega)]
      rfl
    rw [(Write_sent E s b hb hok).2.1, List.drop_left' rfl,
      framesOf_flatten_length _ _ hc, chunks_flatten, hcount]
    omega

theorem Write_returns_payload_length_witness :
    HandshakeOk sampleEnv shortWriteConn ∧ WritesSucceed (frameConn sampleEnv shortWriteConn) ∧
    (shortWriteConn.Write sampleEnv hello).2 = (hello.length, none) :=
  ⟨by decide, by decide,
    (Write_returns_payload_length sampleEnv shortWriteConn hello (by decide) (by decide)).1⟩

/-! ## The two directions -/

theorem write_remain (E : Env) (s : ShadowTls) (b : List Byte) :
    (s.write E b).1.remain = s.remain := by
  cases hf : s.firstRequest with
  | false => rw [write_later E s b hf]
  | true =>
    cases hs : (relay E s).2 with
    | none => rw [write_first E s b hf hs]
    | some err => rw [write_first_failed E s b hf err hs]

theorem WriteLoop_remain (E : Env) (b : List Byte) (fuel i : Nat) (s : ShadowTls) :
    (WriteLoop E b fuel i s).1.remain = s.remain := by
  induction fuel generalizing i s with
  | zero => rfl
  | succ n ih =>
    rw [WriteLoop_succ]
    by_cases hi : i < b.length
    · rw [if_pos hi]
      have hw := write_remain E s
        (slice b i (if i + chunkSize > b.length then b.length else i + chunkSize))
      rcases hwr : s.write E (slice b i (if i + chunkSize > b.length then b.length
        else i + chunkSize)) with ⟨s1, m, e⟩
      rw [hwr] at hw
      cases e with
      | some err => exact hw
      | none =>
        simp only
        rw [ih]
        exact hw
    · rw [if_neg hi]

theorem read_write_side (s : ShadowTls) (b : List Byte) :
    (s.read b).1.firstRequest = s.firstRequest ∧ (s.read b).1.server = s.server ∧
      (s.read b).1.password = s.password := by
  unfold ShadowTls.read
  rcases ReadFull s.Conn TLS_HEADER_LEN with ⟨c1, buf, e⟩
  cases e with
  | some err => exact ⟨rfl, rfl, rfl⟩
  | none =>
    simp only
    split
    · exact ⟨rfl, rfl, rfl⟩
    · split
      · rcases c1.Read b.length with ⟨c2, d, e2⟩
        cases e2 <;> exact ⟨rfl, rfl, rfl⟩
      · exact ⟨rfl, rfl, rfl⟩

/-- C18: a `Read`, whatever it returns, leaves `firstRequest`, `server` and
`password` as they were, and a `Write`, whatever it returns, leaves `remain` as
it was. -/
theorem directions_independent (E : Env) (s : ShadowTls) (b : List Byte) :
    (s.Read b).1.firstRequest = s.firstRequest ∧ (s.Read b).1.server = s.server ∧
    (s.Read b).1.password = s.password ∧ (s.Write E b).1.remain = s.remain := by
  refine ⟨?_, ?_, ?_, WriteLoop_remain E b b.length 0 s⟩
  all_goals
    unfold ShadowTls.Read
    split
    · simp only
      rcases ReadFull s.Conn _ with ⟨c1, d, e⟩
      cases e <;> rfl
    · first
        | exact (read_write_side s b).1
        | exact (read_write_side s b).2.1
        | exact (read_write_side s b).2.2

/-! ## The keyed hash stream and the tag -/

theorem Handshake.run_read (len : Nat) (k : List Byte → Option Error → Handshake)
    (h : HashedConn) :
    (Handshake.read len k).run h =
      (k (h.Conn.Read len).2.1 (h.Conn.Read len).2.2).run
        { Conn := (h.Conn.Read len).1, hasher := h.hasher.Write (h.Conn.Read len).2.1 } := rfl

theorem Handshake.run_write (p : List Byte) (k : Nat → Option Error → Handshake)
    (h : HashedConn) :
    (Handshake.write p k).run h =
      (k (h.Conn.Write p).2.1 (h.Conn.Write p).2.2).run { h with Conn := (h.Conn.Write p).1 } :=
  rfl

theorem Handshake.received_read (len : Nat) (k : List Byte → Option Error → Handshake)
    (c : NetConn) :
    (Handshake.read len k).received c =
      (c.Read len).2.1 ++ (k (c.Read len).2.1 (c.Read len).2.2).received (c.Read len).1 := rfl

theorem Handshake.received_write (p : List Byte) (k : Nat → Option Error → Handshake)
    (c : NetConn) :
    (Handshake.write p k).received c =
      (k (c.Write p).2.1 (c.Write p).2.2).received (c.Write p).1 := rfl

theorem Handshake.run_hasher (p : Handshake) (h : HashedConn) :
    (p.run h).1.hasher.key = h.hasher.key ∧
      (p.run h).1.hasher.absorbed = h.hasher.absorbed ++ p.received h.Conn := by
  induction p generalizing h with
  | done err => exact ⟨rfl, (List.append_nil _).symm⟩
  | read len k ih =>
    rw [Handshake.run_read, Handshake.received_read]
    have := ih (h.Conn.Read len).2.1 (h.Conn.Read len).2.2
      { Conn := (h.Conn.Read len).1, hasher := h.hasher.Write (h.Conn.Read len).2.1 }
    refine ⟨this.1, ?_⟩
    rw [this.2]
    exact List.append_assoc _ _ _
  | write p k ih =>
    rw [Handshake.run_write, Handshake.received_write]
    exact ih (h.Conn.Write p).2.1 (h.Conn.Write p).2.2 { h with Conn := (h.Conn.Write p).1 }

theorem HashedConn.calls_read (len : Nat) (ops : List HashedOp) (h : HashedConn) :
    h.calls (HashedOp.read len :: ops) =
      ((HashedConn.calls (h.Read len).1 ops).1,
        (h.Read len).2.1 :: (HashedConn.calls (h.Read len).1 ops).2) := rfl

theorem HashedConn.calls_write (p : List Byte) (ops : List HashedOp) (h : HashedConn) :
    h.calls (HashedOp.write p :: ops) = HashedConn.calls (h.Write p).1 ops := rfl

theorem HashedConn.calls_hasher (ops : List HashedOp) (h : HashedConn) :
    (h.calls ops).1.hasher.key = h.hasher.key ∧
      (h.calls ops).1.hasher.absorbed = h.hasher.absorbed ++ (h.calls ops).2.flatten := by
  induction ops generalizing h with
  | nil => exact ⟨rfl, (List.append_nil _).symm⟩
  | cons op ops ih =>
    cases op with
    | read len =>
      rw [HashedConn.calls_read]
      have := ih (h.Read len).1
      refine ⟨this.1, ?_⟩
      simp only [List.flatten_cons]
      rw [this.2, ← List.append_assoc]
      rfl
    | write p =>
      rw [HashedConn.calls_write]
      exact ih (h.Write p).1

/-- C15: `HashedConn.Read` returns the bytes and the error of the underlying
connection's `Read` and leaves the underlying connection as that `Read` leaves
it; the hasher absorbs exactly the bytes returned.  A `Write` through the
stream goes to the underlying connection and leaves the hasher as it was.
After any sequence of calls the hasher has absorbed, after what it held
before, the bytes that the `Read` calls returned, in order, and nothing else;
for a stream made by `newHashedStream` that is all it has absorbed. -/
theorem hashed_stream (h : HashedConn) (len : Nat) (p : List Byte) (ops : List HashedOp)
    (conn : NetConn) (password : List Byte) :
    (h.Read len).2 = (h.Conn.Read len).2 ∧
    (h.Read len).1.Conn = (h.Conn.Read len).1 ∧
    (h.Read len).1.hasher.key = h.hasher.key ∧
    (h.Read len).1.hasher.absorbed = h.hasher.absorbed ++ (h.Conn.Read len).2.1 ∧
    (h.Write p).2 = (h.Conn.Write p).2 ∧
    (h.Write p).1.Conn = (h.Conn.Write p).1 ∧
    (h.Write p).1.hasher = h.hasher ∧
    (h.calls ops).1.hasher.key = h.hasher.key ∧
    (h.calls ops).1.hasher.absorbed = h.hasher.absorbed ++ (h.calls ops).2.flatten ∧
    ((newHashedStream conn password).calls ops).1.hasher.key = password ∧
    ((newHashedStream conn password).calls ops).1.hasher.absorbed =
      ((newHashedStream conn password).calls ops).2.flatten := by
  have h1 := HashedConn.calls_hasher ops h
  have h2 := HashedConn.calls_hasher ops (newHashedStream conn password)
  refine ⟨rfl, rfl, rfl, rfl, rfl, rfl, rfl, h1.1, h1.2, h2.1, ?_⟩
  rw [h2.2]
  rfl

theorem relay_hasher (E : Env) (s : ShadowTls) :
    (relay E s).1.hasher.key = s.password ∧ (relay E s).1.hasher.absorbed = observed E s := by
  have := Handshake.run_hasher (E.tls (handshakeOption s))
    { Conn := { s.Conn with handshakes := s.Conn.handshakes ++ [handshakeOption s] },
      hasher := { key := s.password, absorbed := [] } }
  exact ⟨this.1, by rw [show (relay E s).1.hasher.absorbed = _ from this.2]; rfl⟩

/-- C16: the tag that `write` puts in the first frame is the first 8 bytes of
the HMAC, keyed with the password, of all the bytes read from the underlying
connection during the handshake; it has 8 bytes; and two connections with the
same password whose handshakes read the same bytes have the same tag. -/
theorem tag_derivation (E : Env) (s : ShadowTls) :
    handshakeTag E s = (E.hmacSum s.password (observed E s)).take 8 ∧
    (handshakeTag E s).length = 8 ∧
    (∀ b : List Byte, s.firstRequest = true → (relay E s).2 = none →
      (s.write E b).1.Conn.sent =
        (relay E s).1.Conn.sent ++ [frameBytes (handshakeTag E s) b]) ∧
    (∀ s2 : ShadowTls, s2.password = s.password → observed E s2 = observed E s →
      handshakeTag E s2 = handshakeTag E s) := by
  have key : ∀ t : ShadowTls,
      handshakeTag E t = (E.hmacSum t.password (observed E t)).take 8 := by
    intro t
    unfold handshakeTag Hasher.Sum
    rw [(relay_hasher E t).1, (relay_hasher E t).2]
    rfl
  refine ⟨key s, handshakeTag_length E s, ?_, ?_⟩
  · intro b hf hs
    rw [write_first E s b hf hs]
    exact NetConn.Write_logged _ _
  · intro s2 hp ho
    rw [key s2, key s, hp, ho]

theorem tag_derivation_witness :
    sampleConn.firstRequest = true ∧ (relay sampleEnv sampleConn).2 = none ∧
    observed sampleEnv sampleConn = [9, 8, 7] ∧
    (sampleConn.write sampleEnv hello).1.Conn.sent =
      (relay sampleEnv sampleConn).1.Conn.sent ++
        [frameBytes (handshakeTag sampleEnv sampleConn) hello] ∧
    handshakeTag sampleEnv shortWriteConn = handshakeTag sampleEnv sampleConn :=
  ⟨rfl, by decide, by decide,
    (tag_derivation sampleEnv sampleConn).2.2.1 hello rfl (by decide),
    (tag_derivation sampleEnv sampleConn).2.2.2 shortWriteConn rfl (by decide)⟩

/-! ## The header step -/

/-- `io.ReadFull` of fewer bytes than the head segment holds. -/
theorem ReadFull_within (c : NetConn) (seg : Segment) (rest : List Segment) (len : Nat)
    (hc : c.incoming = seg :: rest) (h0 : 0 < len) (h : len < seg.data.length) :
    ReadFull c len = ({ c with incoming := { seg with data := seg.data.drop len } :: rest },
      seg.data.take len, none) := by
  unfold ReadFull
  rw [readAtLeastLoop_succ, if_pos (by simpa using h0)]
  have e : len - ([] : List Byte).length = len := by simp
  rw [e, NetConn.Read_within c seg rest len hc h]
  simp only [List.nil_append]
  rw [readAtLeastLoop_done _ _ _ _ (by rw [List.length_take]; omega)]
  simp only
  rw [if_pos (by rw [List.length_take]; omega)]

/-- C14 (as stated, refuted): a frame of declared length 4 is on its way, the
segment that carries its header ends after the first body byte; a `Read` with a
buffer of 2 bytes returns 1 byte, not 2, and sets `remain` to 3, not 2. -/
theorem short_read_in_header_step :
    splitFrameConn.remain = 0 ∧ Reliable splitFrameConn.Conn ∧
    pending splitFrameConn.Conn = record [1, 2, 3, 4] ∧
    (splitFrameConn.Read [0, 0]).2 = ([1, 0], 1, none) ∧
    (splitFrameConn.Read [0, 0]).1.remain = 3 := by
  decide

/-- C14 (amended): the reader awaits a header and a frame with a body of `L`
bytes is on its way on a reliable connection, in any segmentation.  If
`L <= len(b)`, `Read` puts the `L` body bytes in `b[:L]`, returns `L` and
leaves `remain` at 0.  If `L > len(b)`, `Read` returns a count `n <= len(b)`
with the first `n` body bytes in `b[:n]` and sets `remain` to `L - n`; the count
is `len(b)`, and `remain` is `L - len(b)`, when the read of the underlying
connection is not short, as when the frame arrives in one segment. -/
theorem header_step (s : ShadowTls) (b body tail : List Byte) (hr : s.remain = 0)
    (hrel : Reliable s.Conn) (hp : pending s.Conn = record body ++ tail)
    (hL : body.length < 65536) :
    (body.length ≤ b.length →
      (s.Read b).2 = (body ++ b.drop body.length, body.length, none) ∧
      (s.Read b).1.remain = 0 ∧ pending (s.Read b).1.Conn = tail) ∧
    (body.length > b.length →
      ∃ n, n ≤ b.length ∧ (s.Read b).2 = (body.take n ++ b.drop n, n, none) ∧
        (s.Read b).1.remain = (body.length : Int) - n ∧
        pending (s.Read b).1.Conn = body.drop n ++ tail) ∧
    (body.length > b.length →
      ∀ (extra : List Byte) (more : List Segment),
        s.Conn.incoming = ⟨record body ++ extra, none⟩ :: more →
        (s.Read b).2 = (body.take b.length, b.length, none) ∧
        (s.Read b).1.remain = (body.length : Int) - b.length) := by
  have hf : Feeds s [] (record body ++ tail) := ⟨hrel, by simpa using hr, by simpa using hp⟩
  obtain ⟨s1, d, rest, h1, h2, h3, h4, h5⟩ := Read_header_step s b body tail hf hL
  have hbl : body.length = d.length + rest.length := by rw [h2, List.length_append]
  refine ⟨fun hle => ?_, fun hgt => ?_, fun hgt extra more hinc => ?_⟩
  · have hr0 := h5 hle
    subst hr0
    rw [List.append_nil] at h2
    subst h2
    rw [h1]
    exact ⟨rfl, by simpa using h3.2.1, by simpa using h3.2.2⟩
  · refine ⟨d.length, h4, ?_, ?_, ?_⟩
    · rw [h1, h2, List.take_left' rfl]
      rfl
    · rw [h1]
      simp only
      rw [h3.2.1]
      omega
    · rw [h1, h2, List.drop_left' rfl]
      exact h3.2.2
  · obtain ⟨hdr, hh1, hh2, hh3, hh4⟩ := record_header body hL
    have hfull : ReadFull s.Conn TLS_HEADER_LEN =
        ({ s.Conn with incoming := ⟨body ++ extra, none⟩ :: more }, hdr, none) := by
      rw [ReadFull_within s.Conn _ more TLS_HEADER_LEN hinc (by decide)
        (by simp only [List.length_append, record_length, TLS_HEADER_LEN]; omega)]
      simp only [hh2, List.append_assoc]
      rw [List.drop_left' hh1, List.take_left' hh1]
    have hread : NetConn.Read { s.Conn with incoming := ⟨body ++ extra, none⟩ :: more }
        b.length =
        ({ s.Conn with incoming := ⟨(body ++ extra).drop b.length, none⟩ :: more },
          (body ++ extra).take b.length, none) :=
      NetConn.Read_within _ ⟨body ++ extra, none⟩ more b.length rfl
        (by simp only [List.length_append]; omega)
    rw [Read_awaiting s b (by omega)]
    unfold ShadowTls.read
    rw [hfull]
    simp only
    rw [if_neg hh3, hh4, if_pos hgt, hread]
    simp only
    rw [List.take_append_of_le_length (by omega)]
    have hlen : (body.take b.length).length = b.length := by
      rw [List.length_take]
      omega
    refine ⟨?_, by rw [hlen]⟩
    simp only [fill, hlen, List.drop_length, List.append_nil]

theorem header_step_witness :
    wholeFrameConn.remain = 0 ∧ Reliable wholeFrameConn.Conn ∧
    pending wholeFrameConn.Conn = record [1, 2, 3, 4] ++ [] ∧
    ([1, 2, 3, 4] : List Byte).length < 65536 ∧
    (wholeFrameConn.Read [0, 0, 0, 0, 0]).2 = ([1, 2, 3, 4] ++ [0], 4, none) ∧
    (wholeFrameConn.Read [0, 0, 0]).2 = ([1, 2, 3], 3, none) ∧
    (wholeFrameConn.Read [0, 0, 0]).1.remain = 1 := by
  have h := header_step wholeFrameConn [0, 0, 0, 0, 0] [1, 2, 3, 4] [] rfl (by decide)
    (by decide) (by decide)
  have h3 := (header_step wholeFrameConn [0, 0, 0] [1, 2, 3, 4] [] rfl (by decide)
    (by decide) (by decide)).2.2 (by decide) [] [] rfl
  exact ⟨rfl, by decide, by decide, by decide, (h.1 (by decide)).1, h3.1, h3.2⟩

/-! ## The tag is delivered to the reader -/

theorem flatten_nil_all (ps : List (List Byte)) (he : ps.flatten = []) : ∀ p ∈ ps, p = [] := by
  intro p hp
  have h1 : p.length ≤ ps.flatten.length := by
    obtain ⟨l1, l2, hl⟩ := List.append_of_mem hp
    rw [hl]
    simp
    omega
  rw [he] at h1
  exact List.length_eq_zero.mp (by simpa using h1)

/-- What a fresh reader returns when it is fed the frames of a sequence of
`Write` calls on a fresh connection that sent something. -/
theorem read_back_frames (E : Env) (c : NetConn) (server : String) (password : List Byte)
    (ps : List (List Byte)) (rc : NetConn) (rserver : String) (rpassword : List Byte)
    (bufs : List (List Byte))
    (hs : (relay E (NewShadowTls c server password)).2 = none)
    (hw : WritesSucceed (relay E (NewShadowTls c server password)).1.Conn)
    (hrel : Reliable rc) (hpos : ∀ b ∈ bufs, b ≠ []) (hne : ps.flatten ≠ [])
    (hfed : pending rc = ((Writes E (NewShadowTls c server password) ps).Conn.sent.drop
      (relay E (NewShadowTls c server password)).1.Conn.sent.length).flatten) :
    (∃ t, handshakeTag E (NewShadowTls c server password) ++ ps.flatten =
      ReadBytes (NewShadowTls rc rserver rpassword) bufs ++ t) ∧
    ((pending rc).length ≤ bufs.length →
      ReadBytes (NewShadowTls rc rserver rpassword) bufs =
        handshakeTag E (NewShadowTls c server password) ++ ps.flatten) := by
  have hlen := chunks_all_length_le ps
  have hflat := chunks_all_flatten ps
  have hsent := Writes_sent E ps (NewShadowTls c server password) (fun _ => hs)
    (by simpa [frameConn, NewShadowTls] using hw)
  cases hc : (ps.map chunks).flatten with
  | nil =>
    rw [hc] at hflat
    exact absurd hflat.symm hne
  | cons p0 rest =>
    rw [hc] at hlen hflat hsent
    have hwire : pending rc =
        wire ((handshakeTag E (NewShadowTls c server password) ++ p0) :: rest) := by
      rw [hfed, hsent.2 (by simp)]
      simp only [frameConn, nextTag, NewShadowTls, if_true, List.drop_left',
        framesOf_flatten]
    have hL : ∀ body ∈ (handshakeTag E (NewShadowTls c server password) ++ p0) :: rest,
        body.length < 65536 := by
      intro body hb
      rcases List.mem_cons.mp hb with h | h
      · have := hlen p0 (List.mem_cons_self p0 rest)
        rw [h, List.length_append, handshakeTag_length]
        omega
      · have := hlen body (List.mem_cons_of_mem p0 h)
        omega
    have hf : Feeds (NewShadowTls rc rserver rpassword) []
        (wire ((handshakeTag E (NewShadowTls c server password) ++ p0) :: rest)) :=
      ⟨hrel, rfl, by simpa [NewShadowTls] using hwire⟩
    have key := ReadBytes_feeds bufs _ [] _ hpos hf hL
    have hall : ([] : List Byte) ++
        ((handshakeTag E (NewShadowTls c server password) ++ p0) :: rest).flatten =
        handshakeTag E (NewShadowTls c server password) ++ ps.flatten := by
      rw [← hflat]
      simp
    rw [hall] at key
    refine ⟨key.1, fun h => key.2 ?_⟩
    rw [List.nil_append, ← hwire]
    exact h

/-- C13: payloads are written with `Write` calls on a fresh connection; the
handshake succeeds, so that after the writes `firstRequest` is cleared and the
first frame carries the tag `t`; the underlying writes succeed.  The bytes of
the frames sent are delivered to a fresh reader by a reliable connection, in any
segmentation, and read with any sequence of non-empty buffers.  What the
`Read` calls return is always an initial part of `t` followed by the payloads,
and is exactly `t` followed by the payloads once there have been as many calls
as bytes on the wire; its first 8 bytes are then `t`: the reader hands the tag
to the caller as payload. -/
theorem reader_keeps_tag (E : Env) (c : NetConn) (server : String) (password : List Byte)
    (ps : List (List Byte)) (rc : NetConn) (rserver : String) (rpassword : List Byte)
    (bufs : List (List Byte))
    (hs : (relay E (NewShadowTls c server password)).2 = none)
    (hdone : (Writes E (NewShadowTls c server password) ps).firstRequest = false)
    (hw : WritesSucceed (relay E (NewShadowTls c server password)).1.Conn)
    (hrel : Reliable rc) (hpos : ∀ b ∈ bufs, b ≠ [])
    (hfed : pending rc = ((Writes E (NewShadowTls c server password) ps).Conn.sent.drop
      (relay E (NewShadowTls c server password)).1.Conn.sent.length).flatten) :
    (∃ t, handshakeTag E (NewShadowTls c server password) ++ ps.flatten =
      ReadBytes (NewShadowTls rc rserver rpassword) bufs ++ t) ∧
    ((pending rc).length ≤ bufs.length →
      ReadBytes (NewShadowTls rc rserver rpassword) bufs =
        handshakeTag E (NewShadowTls c server password) ++ ps.flatten ∧
      (ReadBytes (NewShadowTls rc rserver rpassword) bufs).take 8 =
        handshakeTag E (NewShadowTls c server password)) := by
  have hne : ps.flatten ≠ [] := by
    intro he
    rw [Writes_all_nil E ps _ (flatten_nil_all ps he)] at hdone
    cases hdone
  have key := read_back_frames E c server password ps rc rserver rpassword bufs hs hw hrel
    hpos hne hfed
  refine ⟨key.1, fun h => ⟨key.2 h, ?_⟩⟩
  rw [key.2 h, List.take_left' (handshakeTag_length E _)]

theorem reader_keeps_tag_witness :
    (relay sampleEnv sampleConn).2 = none ∧
    (Writes sampleEnv sampleConn [hello]).firstRequest = false ∧
    WritesSucceed (relay sampleEnv sampleConn).1.Conn ∧
    Reliable echoConn.Conn ∧
    (∀ b ∈ List.replicate 18 ([0] : List Byte), b ≠ []) ∧
    ReadBytes (NewShadowTls echoConn.Conn "example.com" []) (List.replicate 18 [0]) =
      handshakeTag sampleEnv sampleConn ++ [hello].flatten :=
  ⟨by decide, by decide, by decide, by decide, by decide,
    ((reader_keeps_tag sampleEnv (connOf [⟨[9, 8, 7], none⟩]) "example.com"
      [104, 117, 110, 116, 101, 114, 50] [hello] echoConn.Conn "example.com" []
      (List.replicate 18 [0]) (by decide) (by decide) (by decide) (by decide) (by decide)
      (by decide)).2 (by decide)).1⟩

/-! ## A failing chunk -/

theorem NetConn.Write_cons (c : NetConn) (p : List Byte) (r : WriteReply)
    (rest : List WriteReply) (h : c.replies = r :: rest) :
    c.Write p = ({ c with replies := rest, sent := c.sent ++ [p] }, min r.n p.length, r.err) := by
  unfold NetConn.Write
  rw [h]

theorem nextTag_length_le (E : Env) (s : ShadowTls) : (nextTag E s).length ≤ 8 := by
  unfold nextTag
  split
  · exact le_of_eq (handshakeTag_length E s)
  · simp

/-- The method `write` when the handshake, if one is due, succeeds. -/
theorem write_frame (E : Env) (s : ShadowTls) (b : List Byte) (hh : HandshakeOk E s) :
    s.write E b =
      ({ s with Conn := ((frameConn E s).Write (frameBytes (nextTag E s) b)).1,
                firstRequest := false }, b.length,
        ((frameConn E s).Write (frameBytes (nextTag E s) b)).2.2) := by
  cases hf : s.firstRequest with
  | false =>
    rw [write_later E s b hf]
    simp only [frameConn, nextTag, hf]
    cases s
    simp only at hf
    subst hf
    rfl
  | true =>
    rw [write_first E s b hf (hh hf)]
    simp only [frameConn, nextTag, hf, if_true]

theorem WriteLoop_fails (E : Env) (b : List Byte) (bad : WriteReply) (rest : List WriteReply)
    (e : Error) (hbad : bad.err = some e) (oks : List WriteReply) (fuel i j : Nat)
    (s : ShadowTls) (hf : s.firstRequest = false) (hrep : s.Conn.replies = oks ++ bad :: rest)
    (hoks : ∀ r ∈ oks, r.err = none) (hj : j = i + oks.length * 8192) (hlt : j < b.length)
    (hfuel : b.length ≤ fuel + i) :
    (WriteLoop E b fuel i s).2 =
      (((b.drop j).take chunkSize).length,
        some (Error.writeFailed e j (if j + chunkSize > b.length then b.length
          else j + chunkSize) ((b.drop j).take chunkSize).length)) ∧
    (WriteLoop E b fuel i s).1.Conn.sent =
      s.Conn.sent ++ ((chunksFrom b fuel i).take (oks.length + 1)).map record ∧
    (WriteLoop E b fuel i s).1.Conn.replies = rest := by
  induction oks generalizing fuel i s with
  | nil =>
    simp only [List.length_nil, Nat.zero_mul, Nat.add_zero] at hj
    subst hj
    obtain ⟨n, hn⟩ : ∃ n, fuel = n + 1 := ⟨fuel - 1, by omega⟩
    subst hn
    rw [WriteLoop_succ, if_pos hlt, slice_stop, write_later E s _ hf, chunksFrom_succ,
      if_pos hlt]
    rw [NetConn.Write_cons s.Conn _ bad rest (by simpa using hrep), hbad]
    simp only [List.length_nil, Nat.zero_add, List.take_succ_cons, List.take_zero,
      List.map_cons, List.map_nil]
    rw [take_chunk_frame [] b j (by simp)]
    simp
  | cons ok oks ih =>
    have hok : ok.err = none := hoks ok (List.mem_cons_self ok oks)
    simp only [List.length_cons] at hj
    have hi : i < b.length := by omega
    obtain ⟨n, hn⟩ : ∃ n, fuel = n + 1 := ⟨fuel - 1, by omega⟩
    subst hn
    rw [WriteLoop_succ, if_pos hi, slice_stop, write_later E s _ hf, chunksFrom_succ,
      if_pos hi]
    rw [NetConn.Write_cons s.Conn _ ok (oks ++ bad :: rest) (by simpa using hrep), hok]
    simp only
    have := ih n (i + chunkSize)
      { s with Conn := { s.Conn with
                          replies := oks ++ bad :: rest
                          sent := s.Conn.sent ++
                            [frameBytes [] ((b.drop i).take chunkSize)] } }
      hf rfl (fun r hr => hoks r (List.mem_cons_of_mem ok hr))
      (by unfold chunkSize; omega) (by unfold chunkSize; omega)
    refine ⟨this.1, ?_, this.2.2⟩
    rw [this.2.1]
    simp only [List.take_succ_cons, List.map_cons, List.append_assoc, List.singleton_append]
    rw [take_chunk_frame [] b i (by simp)]
    simp


theorem chunk_length (b : List Byte) (i : Nat) :
    ((b.drop i).take chunkSize).length =
      (if i + chunkSize > b.length then b.length else i + chunkSize) - i := by
  rw [List.length_take, List.length_drop]
  split <;> omega

/-- C20: the handshake, if one is due, succeeds; the underlying connection
accepts the frames of the first `k` chunks and answers the write of the frame
of the next chunk, the one at offsets `[i, stop)` with `i = k * 8192`, with an
error.  Then `Write` returns the length `stop - i` of that chunk alone as its
count, together with an error that carries `i` and `stop`; the frames handed to
the connection are those of the first `k + 1` chunks, and the connection gets
no further write. -/
theorem Write_stops_at_failure (E : Env) (s : ShadowTls) (b : List Byte)
    (oks : List WriteReply) (bad : WriteReply) (rest : List WriteReply) (e : Error)
    (hh : HandshakeOk E s) (hrep : (frameConn E s).replies = oks ++ bad :: rest)
    (hoks : ∀ r ∈ oks, r.err = none) (hbad : bad.err = some e)
    (hlt : oks.length * 8192 < b.length) :
    (s.Write E b).2 =
      ((if oks.length * 8192 + chunkSize > b.length then b.length
          else oks.length * 8192 + chunkSize) - oks.length * 8192,
        some (Error.writeFailed e (oks.length * 8192)
          (if oks.length * 8192 + chunkSize > b.length then b.length
            else oks.length * 8192 + chunkSize)
          ((if oks.length * 8192 + chunkSize > b.length then b.length
            else oks.length * 8192 + chunkSize) - oks.length * 8192))) ∧
    (s.Write E b).1.Conn.sent =
      (frameConn E s).sent ++ framesOf (nextTag E s) ((chunks b).take (oks.length + 1)) ∧
    ((chunks b).take (oks.length + 1)).length = oks.length + 1 ∧
    (s.Write E b).1.Conn.replies = rest := by
  have hb : b ≠ [] := by
    intro h
    rw [h] at hlt
    simp at hlt
  have hcount : (chunks b).length = (b.length + 8191) / 8192 := by
    unfold chunks
    rw [chunksFrom_count b b.length 0 (by omega)]
    rfl
  have htake : ((chunks b).take (oks.length + 1)).length = oks.length + 1 := by
    rw [List.length_take, hcount]
    omega
  rw [Write_unfold E s b hb, write_frame E s _ hh, chunks_ne_nil b hb]
  rw [← chunk_length b (oks.length * 8192)]
  refine ⟨?_, ?_, by rw [← chunks_ne_nil b hb]; exact htake, ?_⟩
  all_goals
    cases oks with
    | nil =>
      rw [NetConn.Write_cons (frameConn E s) _ bad rest (by simpa using hrep), hbad]
      all_goals try simp only [List.length_nil, Nat.zero_mul, Nat.zero_add,
        List.take_succ_cons, List.take_zero, framesOf, List.map_nil]
      all_goals try first
        | rfl
        | rw [take_chunk_frame _ b 0 (nextTag_length_le E s)]
    | cons ok oks =>
      have hok : ok.err = none := hoks ok (List.mem_cons_self ok oks)
      rw [NetConn.Write_cons (frameConn E s) _ ok (oks ++ bad :: rest)
        (by simpa using hrep), hok]
      simp only
      have := WriteLoop_fails E b bad rest e hbad oks (b.length - 1) (0 + chunkSize)
        ((ok :: oks).length * 8192)
        { s with
          Conn := { frameConn E s with
                    replies := oks ++ bad :: rest
                    sent := (frameConn E s).sent ++
                      [frameBytes (nextTag E s) ((b.drop 0).take chunkSize)] }
          firstRequest := false }
        rfl rfl (fun r hr => hoks r (List.mem_cons_of_mem ok hr))
        (by simp only [List.length_cons]; unfold chunkSize; omega) hlt
        (by unfold chunkSize; omega)
      first
        | exact this.1
        | exact this.2.2
        | rw [this.2.1, take_chunk_frame _ b 0 (nextTag_length_le E s)]
          simp [framesOf]

theorem Write_stops_at_failure_witness :
    HandshakeOk sampleEnv failingWriteConn ∧
    (frameConn sampleEnv failingWriteConn).replies =
      [⟨8205, none⟩] ++ ⟨0, some (Error.io 7)⟩ :: [] ∧
    (failingWriteConn.Write sampleEnv (List.replicate 8193 0)).2 =
      (1, some (Error.writeFailed (Error.io 7) 8192 8193 1)) ∧
    (failingWriteConn.Write sampleEnv (List.replicate 8193 0)).1.Conn.replies = [] := by
  have h := Write_stops_at_failure sampleEnv failingWriteConn (List.replicate 8193 0)
    [⟨8205, none⟩] ⟨0, some (Error.io 7)⟩ [] (Error.io 7) (by decide) (by decide)
    (by decide) rfl (by rw [List.length_replicate]; decide)
  refine ⟨by decide, by decide, ?_, h.2.2.2⟩
  rw [h.1, List.length_replicate]
  decide

/-! ## The length field -/

theorem WriteLoop_sent_any (E : Env) (b : List Byte) (fuel i : Nat) (s : ShadowTls)
    (hf : s.firstRequest = false) :
    ∃ k, (WriteLoop E b fuel i s).1.Conn.sent =
      s.Conn.sent ++ ((chunksFrom b fuel i).take k).map record := by
  induction fuel generalizing i s with
  | zero => exact ⟨0, by simp [WriteLoop]⟩
  | succ n ih =>
    rw [WriteLoop_succ, chunksFrom_succ]
    by_cases hi : i < b.length
    · rw [if_pos hi, if_pos hi, slice_stop, write_later E s _ hf]
      cases he : (s.Conn.Write (frameBytes [] ((b.drop i).take chunkSize))).2.2 with
      | some err =>
        refine ⟨1, ?_⟩
        simp only [List.take_succ_cons, List.take_zero, List.map_cons, List.map_nil]
        rw [NetConn.Write_logged, take_chunk_frame [] b i (by simp)]
        rfl
      | none =>
        simp only
        obtain ⟨k, hk⟩ := ih (i + chunkSize)
          { s with Conn := (s.Conn.Write (frameBytes [] ((b.drop i).take chunkSize))).1 } hf
        refine ⟨k + 1, ?_⟩
        rw [hk]
        simp only [List.take_succ_cons, List.map_cons]
        rw [NetConn.Write_logged, take_chunk_frame [] b i (by simp)]
        simp
    · rw [if_neg hi, if_neg hi]
      exact ⟨0, by simp⟩

/-- What a `Write` of a payload that is not empty has sent, whatever it
returns: the frames of the first chunks, up to some chunk. -/
theorem Write_sent_any (E : Env) (s : ShadowTls) (b : List Byte) (hb : b ≠ []) :
    ∃ k, (s.Write E b).1.Conn.sent =
      (frameConn E s).sent ++ framesOf (nextTag E s) ((chunks b).take k) := by
  rw [Write_unfold E s b hb, chunks_ne_nil b hb]
  by_cases hh : HandshakeOk E s
  · rw [write_frame E s _ hh]
    cases he : ((frameConn E s).Write
        (frameBytes (nextTag E s) ((b.drop 0).take chunkSize))).2.2 with
    | some err =>
      refine ⟨1, ?_⟩
      simp only [List.take_succ_cons, List.take_zero, framesOf, List.map_nil]
      rw [NetConn.Write_logged, take_chunk_frame _ b 0 (nextTag_length_le E s)]
    | none =>
      simp only
      obtain ⟨k, hk⟩ := WriteLoop_sent_any E b (b.length - 1) (0 + chunkSize)
        { s with
          Conn := ((frameConn E s).Write
            (frameBytes (nextTag E s) ((b.drop 0).take chunkSize))).1
          firstRequest := false } rfl
      refine ⟨k + 1, ?_⟩
      rw [hk]
      simp only [List.take_succ_cons, framesOf]
      rw [NetConn.Write_logged, take_chunk_frame _ b 0 (nextTag_length_le E s)]
      simp
  · have hf : s.firstRequest = true := by
      by_contra h
      exact hh (fun h2 => absurd h2 h)
    cases hs : (relay E s).2 with
    | none => exact absurd (fun _ => hs) hh
    | some err =>
      rw [write_first_failed E s _ hf err hs]
      exact ⟨0, by simp [frameConn, hf, framesOf]⟩

theorem beUint16_record (body : List Byte) (h : body.length < 65536) :
    beUint16 ((record body).drop 3) = body.length := by
  have : (record body).drop 3 = bigEndian16 body.length ++ body := rfl
  rw [this]
  simp only [beUint16, bigEndian16, byte, List.cons_append, List.nil_append,
    List.getD_cons_zero, List.getD_cons_succ]
  omega

/-- C17: whatever a `Write` returns, the frames it hands to the connection are
built from payload chunks of at most 8192 bytes, the first of them with the
tag, which has 8 bytes when the frame is the first of the connection and none
otherwise.  So the sum of the lengths of chunk and tag is at most 8200 for the
first frame of the connection and at most 8192 for any other frame, the
conversion to `uint16` leaves it as it is, and the length declared in the frame
is this sum. -/
theorem length_field_bound (E : Env) (s : ShadowTls) (b : List Byte) :
    ∃ payloads : List (List Byte),
      (s.Write E b).1.Conn.sent =
        (if b = [] then s.Conn.sent else (frameConn E s).sent) ++
          framesOf (nextTag E s) payloads ∧
      (nextTag E s).length = (if s.firstRequest then 8 else 0) ∧
      ∀ (p0 : List Byte) (rest : List (List Byte)), payloads = p0 :: rest →
        framesOf (nextTag E s) payloads =
          frameBytes (nextTag E s) p0 :: rest.map (frameBytes []) ∧
        p0.length + (nextTag E s).length ≤ (if s.firstRequest then 8200 else 8192) ∧
        uint16 (p0.length + (nextTag E s).length) = p0.length + (nextTag E s).length ∧
        beUint16 ((frameBytes (nextTag E s) p0).drop 3) = p0.length + (nextTag E s).length ∧
        ∀ p ∈ rest, p.length ≤ 8192 ∧
          uint16 (p.length + ([] : List Byte).length) = p.length ∧
          beUint16 ((frameBytes [] p).drop 3) = p.length := by
  have htag : (nextTag E s).length = (if s.firstRequest then 8 else 0) := by
    unfold nextTag
    split
    · exact handshakeTag_length E s
    · rfl
  have hsent : ∃ payloads : List (List Byte),
      (s.Write E b).1.Conn.sent =
        (if b = [] then s.Conn.sent else (frameConn E s).sent) ++
          framesOf (nextTag E s) payloads ∧ ∀ p ∈ payloads, p.length ≤ 8192 := by
    by_cases hb : b = []
    · subst hb
      exact ⟨[], by simp [Write_nil, framesOf], by simp⟩
    · obtain ⟨k, hk⟩ := Write_sent_any E s b hb
      refine ⟨(chunks b).take k, by rw [if_neg hb]; exact hk, fun p hp => ?_⟩
      exact chunksFrom_length_le b b.length 0 p (List.mem_of_mem_take hp)
  obtain ⟨payloads, h1, h2⟩ := hsent
  refine ⟨payloads, h1, htag, ?_⟩
  intro p0 rest hpl
  subst hpl
  have hp0 := h2 p0 (List.mem_cons_self p0 rest)
  have hrest : ∀ p ∈ rest, p.length ≤ 8192 := fun p hp => h2 p (List.mem_cons_of_mem p0 hp)
  have htl := nextTag_length_le E s
  have hb0 : p0.length + (nextTag E s).length ≤ (if s.firstRequest then 8200 else 8192) := by
    rw [htag]
    split <;> omega
  refine ⟨?_, hb0, ?_, ?_, ?_⟩
  · simp only [framesOf]
    rw [frameBytes_eq_record _ p0 (by omega)]
    congr 1
    apply List.map_congr_left
    intro p hp
    have := hrest p hp
    rw [frameBytes_eq_record [] p (by simp; omega)]
    rfl
  · unfold uint16
    omega
  · rw [frameBytes_eq_record _ p0 (by omega), beUint16_record _ (by simp; omega),
      List.length_append]
    omega
  · intro p hp
    have := hrest p hp
    refine ⟨this, ?_, ?_⟩
    · unfold uint16
      simp
      omega
    · rw [frameBytes_eq_record [] p (by simp; omega), beUint16_record _ (by simp; omega)]
      simp

theorem length_field_bound_witness :
    ∃ payloads : List (List Byte),
      (sampleConn.Write sampleEnv hello).1.Conn.sent =
        (if hello = [] then sampleConn.Conn.sent else (frameConn sampleEnv sampleConn).sent) ++
          framesOf (nextTag sampleEnv sampleConn) payloads ∧
      (nextTag sampleEnv sampleConn).length = (if sampleConn.firstRequest then 8 else 0) ∧
      ∀ (p0 : List Byte) (rest : List (List Byte)), payloads = p0 :: rest →
        framesOf (nextTag sampleEnv sampleConn) payloads =
          frameBytes (nextTag sampleEnv sampleConn) p0 :: rest.map (frameBytes []) ∧
        p0.length + (nextTag sampleEnv sampleConn).length ≤
          (if sampleConn.firstRequest then 8200 else 8192) ∧
        uint16 (p0.length + (nextTag sampleEnv sampleConn).length) =
          p0.length + (nextTag sampleEnv sampleConn).length ∧
        beUint16 ((frameBytes (nextTag sampleEnv sampleConn) p0).drop 3) =
          p0.length + (nextTag sampleEnv sampleConn).length ∧
        ∀ p ∈ rest, p.length ≤ 8192 ∧
          uint16 (p.length + ([] : List Byte).length) = p.length ∧
          beUint16 ((frameBytes [] p).drop 3) = p.length :=
  length_field_bound sampleEnv sampleConn hello

/-! ## The counter of the reader -/

theorem beUint16_le (p : List Byte) : beUint16 p ≤ 65535 := by
  unfold beUint16
  have h0 := (p.getD 0 0).isLt
  have h1 := (p.getD 1 0).isLt
  omega

/-- One `Read` keeps `remain` between 0 and 65535; when it returns no error
and no frame was being consumed, `remain` is the length declared by the header
it read minus the count it returns; when it returns no error and a frame was
being consumed, `remain` goes down by the count it returns. -/
theorem Read_remain (s : ShadowTls) (b : List Byte) (h0 : 0 ≤ s.remain)
    (h1 : s.remain ≤ 65535) :
    0 ≤ (s.Read b).1.remain ∧ (s.Read b).1.remain ≤ 65535 ∧
    ((s.Read b).2.2.2 = none →
      (s.remain = 0 →
        (s.Read b).2.2.1 ≤ beUint16 ((ReadFull s.Conn TLS_HEADER_LEN).2.1.drop 3) ∧
        (s.Read b).1.remain =
          (beUint16 ((ReadFull s.Conn TLS_HEADER_LEN).2.1.drop 3) : Int) - (s.Read b).2.2.1) ∧
      (0 < s.remain →
        ((s.Read b).2.2.1 : Int) ≤ s.remain ∧
        (s.Read b).1.remain = s.remain - (s.Read b).2.2.1)) := by
  by_cases hpos : 0 < s.remain
  · unfold ShadowTls.Read
    rw [if_pos hpos]
    simp only
    have hlen := ReadFull_none_length s.Conn
      (if s.remain > (b.length : Int) then (b.length : Int) else s.remain).toNat
    rcases hr : ReadFull s.Conn
      (if s.remain > (b.length : Int) then (b.length : Int) else s.remain).toNat with ⟨c1, d, e⟩
    rw [hr] at hlen
    cases e with
    | some err =>
      exact ⟨h0, h1, fun h => by cases h⟩
    | none =>
      have hd := hlen rfl
      simp only at hd ⊢
      have hdl : (d.length : Int) ≤ s.remain := by
        rw [hd]
        split <;> omega
      exact ⟨by omega, by omega, fun _ => ⟨fun h => by omega, fun _ => ⟨hdl, by first | rfl | trivial⟩⟩⟩
  · have hz : s.remain = 0 := by omega
    rw [Read_awaiting s b (by omega)]
    unfold ShadowTls.read
    rcases hr : ReadFull s.Conn TLS_HEADER_LEN with ⟨c1, buf, e⟩
    cases e with
    | some err => exact ⟨h0, h1, fun h => by cases h⟩
    | none =>
      simp only
      by_cases hm : badMagic buf
      · rw [if_pos hm]
        exact ⟨h0, h1, fun h => by cases h⟩
      · rw [if_neg hm]
        have hle := beUint16_le (buf.drop 3)
        by_cases hgt : beUint16 (buf.drop 3) > b.length
        · rw [if_pos hgt]
          have hrl := (NetConn.Read_length_le c1 b.length).1
          rcases hr2 : c1.Read b.length with ⟨c2, d, e2⟩
          rw [hr2] at hrl
          simp only at hrl
          cases e2 with
          | some err => exact ⟨h0, h1, fun h => by cases h⟩
          | none =>
            simp only
            exact ⟨by omega, by omega,
              fun _ => ⟨fun _ => ⟨by omega, by first | rfl | trivial⟩, fun h => by omega⟩⟩
        · rw [if_neg hgt]
          have hlen := ReadFull_none_length c1 (beUint16 (buf.drop 3))
          rcases hr3 : ReadFull c1 (beUint16 (buf.drop 3)) with ⟨c2, d, e3⟩
          rw [hr3] at hlen
          simp only at hlen ⊢
          refine ⟨h0, h1, fun he => ⟨fun _ => ?_, fun h => by omega⟩⟩
          have := hlen he
          exact ⟨by omega, by omega⟩

theorem ReadsProgress_cons (s : ShadowTls) (g : FrameProgress) (b : List Byte)
    (bufs : List (List Byte)) :
    ReadsProgress s g (b :: bufs) = ReadsProgress (s.Read b).1 (g.step s b) bufs := rfl

theorem Reads_remain (bufs : List (List Byte)) (s : ShadowTls) (g : FrameProgress)
    (h0 : 0 ≤ s.remain) (h1 : s.remain ≤ 65535) :
    0 ≤ (Reads s bufs).remain ∧ (Reads s bufs).remain ≤ 65535 ∧
    (s.remain = (g.declared : Int) - g.returned → g.returned ≤ g.declared →
      (∀ r ∈ ReadTrace s bufs, r.2.1 = none) →
      (Reads s bufs).remain =
        ((ReadsProgress s g bufs).declared : Int) - (ReadsProgress s g bufs).returned ∧
      (ReadsProgress s g bufs).returned ≤ (ReadsProgress s g bufs).declared) := by
  induction bufs generalizing s g with
  | nil => exact ⟨h0, h1, fun h2 h3 _ => ⟨h2, h3⟩⟩
  | cons b bufs ih =>
    have hstep := Read_remain s b h0 h1
    have hrest := ih (s.Read b).1 (g.step s b) hstep.1 hstep.2.1
    rw [Reads_cons, ReadsProgress_cons]
    refine ⟨hrest.1, hrest.2.1, fun h2 h3 hok => ?_⟩
    rw [ReadTrace_cons] at hok
    have hnone : (s.Read b).2.2.2 = none := hok _ (List.mem_cons_self _ _)
    have hs := hstep.2.2 hnone
    apply hrest.2.2
    · unfold FrameProgress.step
      split
      · rename_i heq
        have hz : s.remain = 0 := by omega
        simp only
        exact (hs.1 hz).2
      · rename_i hne
        have hp : 0 < s.remain := by omega
        simp only
        rw [(hs.2 hp).2, h2]
        push_cast
        omega
    · unfold FrameProgress.step
      split
      · rename_i heq
        have hz : s.remain = 0 := by omega
        exact (hs.1 hz).1
      · rename_i hne
        have hp : 0 < s.remain := by omega
        have := (hs.2 hp).1
        simp only
        omega
    · intro r hr
      exact hok r (List.mem_cons_of_mem _ hr)

/-- C19: starting from `NewShadowTls`, after any sequence of `Read` calls with
any buffers on any underlying connection (short reads, errors and ends
included), `remain` is between 0 and 65535; and if none of the calls returned
an error, `remain` is the length declared by the header of the frame being
consumed minus the number of its body bytes that the calls have returned. -/
theorem remain_invariant (conn : NetConn) (server : String) (password : List Byte)
    (bufs : List (List Byte)) :
    0 ≤ (Reads (NewShadowTls conn server password) bufs).remain ∧
    (Reads (NewShadowTls conn server password) bufs).remain ≤ 65535 ∧
    ((∀ r ∈ ReadTrace (NewShadowTls conn server password) bufs, r.2.1 = none) →
      (Reads (NewShadowTls conn server password) bufs).remain =
        ((ReadsProgress (NewShadowTls conn server password) ⟨0, 0⟩ bufs).declared : Int) -
          (ReadsProgress (NewShadowTls conn server password) ⟨0, 0⟩ bufs).returned ∧
      (ReadsProgress (NewShadowTls conn server password) ⟨0, 0⟩ bufs).returned ≤
        (ReadsProgress (NewShadowTls conn server password) ⟨0, 0⟩ bufs).declared) := by
  have h := Reads_remain bufs (NewShadowTls conn server password) ⟨0, 0⟩ (le_refl _)
    (show (0 : Int) ≤ 65535 by decide)
  exact ⟨h.1, h.2.1, fun hok => h.2.2 rfl (le_refl _) hok⟩

theorem remain_invariant_witness :
    (∀ r ∈ ReadTrace twoFrameConn [[0, 0], [0]], r.2.1 = none) ∧
    ReadsProgress twoFrameConn ⟨0, 0⟩ [[0, 0], [0]] = ⟨4, 2⟩ ∧
    (Reads twoFrameConn [[0, 0], [0]]).remain = ((4 : Nat) : Int) - (2 : Nat) ∧
    0 ≤ (Reads twoFrameConn [[0, 0], [0], [0, 0, 0], [0]]).remain ∧
    (Reads twoFrameConn [[0, 0], [0], [0, 0, 0], [0]]).remain ≤ 65535 := by
  have h := remain_invariant (connOf [⟨[0x17, 0x03, 0x03, 0, 4, 1], none⟩,
    ⟨[2, 3, 4, 0x17, 0x03], none⟩]) "example.com" [] [[0, 0], [0]]
  have h2 := remain_invariant (connOf [⟨[0x17, 0x03, 0x03, 0, 4, 1], none⟩,
    ⟨[2, 3, 4, 0x17, 0x03], none⟩]) "example.com" [] [[0, 0], [0], [0, 0, 0], [0]]
  have hp : ReadsProgress twoFrameConn ⟨0, 0⟩ [[0, 0], [0]] = ⟨4, 2⟩ := by decide
  have hok : ∀ r ∈ ReadTrace twoFrameConn [[0, 0], [0]], r.2.1 = none := by decide
  refine ⟨hok, hp, ?_, h2.1, h2.2.1⟩
  have h3 := (h.2.2 hok).1
  rw [show ReadsProgress (NewShadowTls (connOf [⟨[0x17, 0x03, 0x03, 0, 4, 1], none⟩,
    ⟨[2, 3, 4, 0x17, 0x03], none⟩]) "example.com" []) ⟨0, 0⟩ [[0, 0], [0]] = ⟨4, 2⟩
    from hp] at h3
  exact h3

end shadowtls
